import Mathlib

/-
Verification of the planar incremental-construction engine of the
Graph-Drawing repository (src/src/components/GraphCanvas.jsx).

Coordinates in the source are JavaScript numbers; every coordinate that the
engine ever produces from the seed triangle lies in the field Q(sqrt 3)
(the seed uses cos(pi/6) = sqrt(3)/2 and sin(pi/6) = 1/2; all other
arithmetic is rational except square roots, which in the concrete runs of
this file stay inside the field).  We therefore embed coordinates as exact
elements of Q(sqrt 3), represented as (na + nb * sqrt 3) / den with integer
numerators and a positive natural denominator, kept unnormalised so that
every operation is kernel-computable.  Comparisons of the form
Math.hypot(dx, dy) < c are embedded by the equivalent exact comparison of
squares; a bare Math.sqrt is embedded by the exact square root inside the
field where one exists (the function verifies its result by squaring) and
0 otherwise, matching the real-number semantics at every input evaluated in
this development.
-/

/-- Element of Q(sqrt 3): (na + nb * sqrt 3) / den, den positive. -/
structure Q3 where
  na : Int
  nb : Int
  den : Nat
  dpos : 0 < den

/-- Embed an integer. -/
def Q3.ofInt (n : Int) : Q3 := ⟨n, 0, 1, Nat.one_pos⟩

instance (n : Nat) : OfNat Q3 n := ⟨Q3.ofInt (n : Int)⟩

def Q3.add (x y : Q3) : Q3 :=
  ⟨x.na * y.den + y.na * x.den, x.nb * y.den + y.nb * x.den, x.den * y.den,
    Nat.mul_pos x.dpos y.dpos⟩

def Q3.neg (x : Q3) : Q3 := ⟨-x.na, -x.nb, x.den, x.dpos⟩

def Q3.sub (x y : Q3) : Q3 := x.add y.neg

def Q3.mul (x y : Q3) : Q3 :=
  ⟨x.na * y.na + 3 * (x.nb * y.nb), x.na * y.nb + x.nb * y.na, x.den * y.den,
    Nat.mul_pos x.dpos y.dpos⟩

instance : Add Q3 := ⟨Q3.add⟩
instance : Neg Q3 := ⟨Q3.neg⟩
instance : Sub Q3 := ⟨Q3.sub⟩
instance : Mul Q3 := ⟨Q3.mul⟩

/-- Sign test for a + b * sqrt 3 > 0 on the integer numerator pair. -/
def Q3.posPair (a b : Int) : Bool :=
  if 0 ≤ a then
    (if 0 ≤ b then (0 < a || 0 < b) else (3 * (b * b) < a * a))
  else
    (if 0 ≤ b then (a * a < 3 * (b * b)) else false)

/-- x > 0 (the denominator is positive, so only the numerators matter). -/
def Q3.posB (x : Q3) : Bool := Q3.posPair x.na x.nb

/-- JavaScript x < y on numbers. -/
def Q3.blt (x y : Q3) : Bool := (y.sub x).posB

/-- JavaScript x > y on numbers. -/
def Q3.bgt (x y : Q3) : Bool := (x.sub y).posB

/-- JavaScript x <= y on numbers. -/
def Q3.ble (x y : Q3) : Bool := !(y.blt x)

/-- JavaScript x === y on numbers (equality of the represented values). -/
def Q3.beq (x y : Q3) : Bool :=
  x.na * (y.den : Int) == y.na * (x.den : Int) &&
  x.nb * (y.den : Int) == y.nb * (x.den : Int)

/-- Math.abs. -/
def Q3.abs (x : Q3) : Q3 := if x.blt 0 then x.neg else x

/-- Structural (representation) equality of Q3 is decidable; the proof
field is irrelevant. -/
instance : DecidableEq Q3 := fun x y =>
  decidable_of_iff (x.na = y.na ∧ x.nb = y.nb ∧ x.den = y.den)
    (by cases x; cases y; simp)

/-- Field inverse: den / (na + nb * sqrt 3) = den (na - nb * sqrt 3) / (na^2 - 3 nb^2).
The inverse of 0 is arbitrarily 0 (the source never divides by zero on the
paths evaluated here). -/
def Q3.inv (x : Q3) : Q3 :=
  let q : Int := x.na * x.na - 3 * (x.nb * x.nb)
  if h : 0 < q then
    ⟨(x.den : Int) * x.na, -((x.den : Int) * x.nb), q.toNat, by omega⟩
  else if h2 : q < 0 then
    ⟨-((x.den : Int) * x.na), (x.den : Int) * x.nb, (-q).toNat, by omega⟩
  else ⟨0, 0, 1, Nat.one_pos⟩

def Q3.div (x y : Q3) : Q3 := x.mul y.inv

/-- Division by a list length (a natural number); division by 0 is junk,
mirroring that the source only divides by positive counts on the evaluated
paths. -/
def Q3.divNat (x : Q3) (n : Nat) : Q3 :=
  match n with
  | 0 => x
  | n + 1 => ⟨x.na, x.nb, x.den * (n + 1), Nat.mul_pos x.dpos (Nat.succ_pos n)⟩

/-- Fuel-based integer square root (highest bit first), kernel-computable;
the fuel covers radicands of up to 4096 bits, far beyond every number
arising in the runs evaluated in this file. -/
def isqrtAux (n : Nat) : Nat → Nat → Nat
  | 0, r => r
  | i + 1, r =>
    let r2 := r + 2 ^ i
    if r2 * r2 ≤ n then isqrtAux n i r2 else isqrtAux n i r

def isqrt (n : Nat) : Nat := isqrtAux n 2048 0

/-- Exact square root of the rational n / m when it is rational
(sqrt (n / m) = sqrt (n * m) / m), as a numerator paired with m. -/
def ratSqrt (n : Int) (m : Nat) : Option Int :=
  if n < 0 then none
  else
    let s := isqrt (n.toNat * m)
    if (s * s : Nat) = n.toNat * m then some (s : Int) else none

/-- Candidate square roots of x = (A + B sqrt 3) / D inside Q(sqrt 3).
Writing y = c + e sqrt 3 with y * y = x gives c^2 + 3 e^2 = A / D and
2 c e = B / D.  For B = 0 the root is either rational (c = sqrt (A D) / D)
or a rational multiple of sqrt 3 (e = sqrt (3 A D) / (3 D)); for B nonzero,
c^2 = (A plus-or-minus sqrt (A^2 - 3 B^2)) / (2 D) and e = B / (2 D c).
Every candidate is verified by squaring before sqrt returns it. -/
def Q3.sqrtCandidates (x : Q3) : List Q3 :=
  let A := x.na
  let B := x.nb
  let D := x.den
  if B = 0 then
    (match ratSqrt A D with
     | some s => [⟨s, 0, D, x.dpos⟩]
     | none => []) ++
    (match ratSqrt A (3 * D) with
     | some s => [⟨0, s, 3 * D, Nat.mul_pos (by decide) x.dpos⟩]
     | none => [])
  else
    match ratSqrt (A * A - 3 * (B * B)) (D * D) with
    | none => []
    | some u =>
      let mk : Int → List Q3 := fun t =>
        match ratSqrt (t * (2 * (D : Int))) ((2 * D) * (2 * D)) with
        | none => []
        | some cnum =>
          if h : 0 < cnum then
            -- y = cnum / (2 D) + (B / cnum) sqrt 3
            --   = (cnum^2 + 2 D B sqrt 3) / (2 D cnum)
            let y : Q3 := ⟨cnum * cnum, 2 * (D : Int) * B, 2 * D * cnum.toNat,
              Nat.mul_pos (Nat.mul_pos (by decide) x.dpos) (by omega)⟩
            [y, y.neg]
          else []
      mk (A + u) ++ mk (A - u)

/-- Math.sqrt, exactly, for arguments whose square root lies in Q(sqrt 3);
returns 0 otherwise (never the case on the paths evaluated in this file).
Each candidate is verified by squaring, so any returned value y satisfies
y * y = x and y >= 0. -/
def Q3.sqrt (x : Q3) : Q3 :=
  match (Q3.sqrtCandidates x).find? (fun y => (y.mul y).beq x && !(y.blt 0)) with
  | some y => y
  | none => 0

/-- Math.hypot(dx, dy). -/
def Q3.hypot (dx dy : Q3) : Q3 := (dx.mul dx |>.add (dy.mul dy)).sqrt

/-- The comparison Math.hypot(dx, dy) < c, embedded exactly by comparing
squares (both sides are nonnegative in every call site). -/
def hypotLt (dx dy c : Q3) : Bool := (dx.mul dx |>.add (dy.mul dy)).blt (c.mul c)

/-- A 2D point (the pos objects of the source). -/
structure Pt where
  x : Q3
  y : Q3

/-- A vertex record: { id, color, pos } as in the source data model. -/
structure Vertex where
  id : Nat
  color : Option Nat
  pos : Pt

/-- Edges are stored as ordered index pairs in a list (JS arrays [a, b]). -/
abbrev Edge := Nat × Nat

/-- Default vertex used to model JavaScript array indexing through getD;
all theorems in this file either hold for every lookup result or carry
range hypotheses keeping every lookup in bounds. -/
def defVertex : Vertex := ⟨0, none, ⟨0, 0⟩⟩

/-- Position of vertex index i. -/
def posAt (vs : List Vertex) (i : Nat) : Pt := (vs.getD i defVertex).pos

/-- The graph value threaded through the engine: { vertices, edges }. -/
structure Graph where
  vertices : List Vertex
  edges : List Edge

deriving instance DecidableEq for Pt

deriving instance DecidableEq for Vertex

deriving instance DecidableEq for Graph

/-- Canonical unordered key of an edge, modelling the template-string key
min-max used by the source (the string key a-b is injective on pairs). -/
def canon (a b : Nat) : Nat × Nat := if a < b then (a, b) else (b, a)

/-- Canonical image of an edge list (the Set of keys in the source). -/
def canonEdges (es : List Edge) : List (Nat × Nat) := es.map (fun e => canon e.1 e.2)

/-- Source getNextVertexId: 1 on the empty list, else max id + 1. -/
def getNextVertexId (vs : List Vertex) : Nat :=
  if vs.length = 0 then 1 else (vs.map (fun v => v.id)).foldl Nat.max 0 + 1

/-- Source ccw(a, b, c): (c.y - a.y) * (b.x - a.x) > (b.y - a.y) * (c.x - a.x). -/
def ccw (a b c : Pt) : Bool :=
  ((c.y.sub a.y).mul (b.x.sub a.x)).bgt ((b.y.sub a.y).mul (c.x.sub a.x))

/-- Source doLinesIntersect: strict segment-crossing test via two ccw
disagreements. -/
def doLinesIntersect (p1 p2 q1 q2 : Pt) : Bool :=
  (ccw p1 q1 q2 != ccw p2 q1 q2) && (ccw p1 p2 q1 != ccw p1 p2 q2)

/-- Source triangle area without sign: |x1 (y2 - y3) + x2 (y3 - y1) + x3 (y1 - y2)| / 2. -/
def triArea (p1 p2 p3 : Pt) : Q3 :=
  (((p1.x.mul (p2.y.sub p3.y)).add
    ((p2.x.mul (p3.y.sub p1.y)).add
     (p3.x.mul (p1.y.sub p2.y)))).divNat 2).abs

/-- Source isPointInsideTriangle: area-sum test with absolute tolerance 0.01. -/
def isPointInsideTriangle (p a b c : Pt) : Bool :=
  let A := triArea a b c
  let A1 := triArea p b c
  let A2 := triArea a p c
  let A3 := triArea a b p
  ((A.sub (A1.add (A2.add A3))).abs).blt ⟨1, 0, 100, by decide⟩

/-- Source isFullyConnected: every unordered pair inside the segment has a
matching edge key. -/
def isFullyConnected (_vertices : List Vertex) (edges : List Edge)
    (segment : List Nat) : Bool :=
  let edgeSet := canonEdges edges
  (List.range segment.length).all (fun i =>
    (List.range' (i + 1) (segment.length - (i + 1))).all (fun j =>
      edgeSet.contains (canon (segment.getD i 0) (segment.getD j 0))))

/-
Periphery detector (source getPeriphery).  JavaScript exceptions (reading a
property of undefined, e.g. when an edge index is out of range or the walk
reaches a vertex with no neighbours) are modelled by the value none; the
walking pointer itself is an Option Nat, none standing for undefined.
The neighbour sort mirrors the stable V8 sort under the comparator
atan2(ay - vy, ax - vx) - atan2(by - vy, bx - vx): angles are compared
exactly by half-plane tier and cross product instead of transcendentally.
-/

/-- Tier of the atan2 value of the vector (dx, dy): atan2 lies in
(-pi, 0) when dy < 0, equals 0 when dy = 0 and dx >= 0 (including the zero
vector, since atan2(0, 0) = 0), lies in (0, pi) when dy > 0, and equals pi
when dy = 0 and dx < 0. -/
def angTier (dx dy : Q3) : Nat :=
  if dy.blt 0 then 0
  else if (0 : Q3).blt dy then 2
  else if dx.blt 0 then 3 else 1

/-- Exact comparison of atan2 angles of two vectors: within the open lower
or upper half-plane, the angle of u is smaller than that of v iff the cross
product u x v is positive (the difference of the two angles is less than pi
in magnitude there); tiers 1 and 3 have a single angle each. -/
def angLt (ux uy vx vy : Q3) : Bool :=
  let tu := angTier ux uy
  let tv := angTier vx vy
  if tu < tv then true
  else if tv < tu then false
  else ((ux.mul vy).sub (uy.mul vx)).posB

/-- Stable insertion sort by a strict Bool order: an element is placed
after every earlier element that is strictly smaller, and before equal
ones only when it originally preceded them (V8 sort is stable). -/
def stableInsert (lt : Nat → Nat → Bool) (a : Nat) : List Nat → List Nat
  | [] => [a]
  | b :: bs => if lt b a then b :: stableInsert lt a bs else a :: b :: bs

def stableSort (lt : Nat → Nat → Bool) : List Nat → List Nat
  | [] => []
  | a :: as => stableInsert lt a (stableSort lt as)

/-- Source sortNeighborsByAngle for one vertex: sort the adjacency list of
vertexIdx by angle from that vertex. -/
def sortNeighborsByAngle (vertices : List Vertex) (adj : List (List Nat))
    (vertexIdx : Nat) : List Nat :=
  let vpos := posAt vertices vertexIdx
  stableSort (fun a b =>
    angLt ((posAt vertices a).x.sub vpos.x) ((posAt vertices a).y.sub vpos.y)
          ((posAt vertices b).x.sub vpos.x) ((posAt vertices b).y.sub vpos.y))
    (adj.getD vertexIdx [])

/-- Adjacency-list construction: adj[a].push(b); adj[b].push(a) for each
edge; an out-of-range index is a JavaScript TypeError, modelled as none. -/
def buildAdj (n : Nat) (edges : List Edge) : Option (List (List Nat)) :=
  edges.foldlM (fun adj e =>
    if e.1 < n ∧ e.2 < n then
      let adj1 := adj.set e.1 (adj.getD e.1 [] ++ [e.2])
      some (adj1.set e.2 (adj1.getD e.2 [] ++ [e.1]))
    else none)
    (List.replicate n [])

/-- Leftmost vertex (ties broken by smaller y), the walk start. -/
def peripheryStart (vertices : List Vertex) : Nat :=
  (List.range vertices.length).foldl (fun start i =>
    if ((posAt vertices i).x.blt (posAt vertices start).x ||
        ((posAt vertices i).x.beq (posAt vertices start).x &&
         (posAt vertices i).y.blt (posAt vertices start).y))
    then i else start) 0

/-- One next-vertex choice of the walk: first neighbour on the first step,
otherwise the neighbour after the arrival edge in angular order; an empty
neighbour list yields none (JS undefined). -/
def walkNext (sortedNeighbors : List Nat) (prevVertex : Option Nat) : Option Nat :=
  match prevVertex with
  | none => sortedNeighbors.head?
  | some prev =>
    match sortedNeighbors.indexOf? prev with
    | some prevIndex =>
      some (sortedNeighbors.getD ((prevIndex + 1) % sortedNeighbors.length) 0)
    | none => sortedNeighbors.head?

/-- The do-while walk of getPeriphery.  The loop guard is
periphery.length < vertices.length, which is exactly the statement that the
fuel below is positive (the fuel starts at vertices.length and falls by one
as the periphery grows by one), so the recursion is a faithful rendering of
the source loop, not an added bound.  A none current pointer is the
JavaScript crash of reading vertices[undefined]. -/
def peripheryWalk (vertices : List Vertex) (adj : List (List Nat))
    (start : Nat) : Nat → List Nat → Option Nat → Option Nat → Option (List Nat)
  | fuel, periphery, currentOpt, prevVertex =>
    match currentOpt with
    | none => none
    | some current =>
      let periphery := periphery ++ [current]
      let sortedNeighbors := sortNeighborsByAngle vertices adj current
      let nextVertex := walkNext sortedNeighbors prevVertex
      -- if (nextVertex === null || nextVertex === start) break
      if nextVertex = some start then some periphery
      else
        -- while (current !== start && periphery.length < vertices.length)
        if periphery.length < vertices.length then
          match fuel with
          | 0 => some periphery
          | fuel + 1 => peripheryWalk vertices adj start fuel periphery nextVertex (some current)
        else some periphery

/-- Source getPeriphery. -/
def getPeriphery (vertices : List Vertex) (edges : List Edge) : Option (List Nat) :=
  if vertices.length < 3 then some []
  else if vertices.length = 3 then some [0, 1, 2]
  else
    match buildAdj vertices.length edges with
    | none => none
    | some adj =>
      let start := peripheryStart vertices
      peripheryWalk vertices adj start vertices.length [] (some start) none

/-
Command parsing (source parseAddCommand).  The anchored regular expression
A,\s*([\d,\-\s]+) with the ignore-case flag matches exactly when the
command is the letter A (either case), a comma, and a nonempty remainder
drawn from digits, commas, hyphens and whitespace; the captured group is
then stripped of whitespace, so the match plus strip is modelled in one
step.  Number("") is 0 and Number of a digit string is its value; a string
with other characters (such as an embedded comma in a range half) is NaN,
and every comparison against NaN is false.
-/

def isSpaceChar (c : Char) : Bool := c = ' ' || c = '\t' || c = '\n' || c = '\r'

def isClassChar (c : Char) : Bool := c.isDigit || c = ',' || c = '-' || isSpaceChar c

/-- Regex match plus whitespace strip: the stripped capture, or none. -/
def matchAddRegex (cmd : String) : Option (List Char) :=
  match cmd.data with
  | a :: c :: rest =>
    if (a = 'A' || a = 'a') && c = ',' && !rest.isEmpty && rest.all isClassChar
    then some (rest.filter (fun ch => !(isSpaceChar ch)))
    else none
  | _ => none

/-- String split on a separator character (JS split semantics: n separators
produce n + 1 possibly empty groups). -/
def splitChar (sep : Char) : List Char → List (List Char)
  | [] => [[]]
  | c :: cs =>
    let r := splitChar sep cs
    if c = sep then [] :: r
    else
      match r with
      | [] => [[c]]
      | g :: gs => (c :: g) :: gs

def digitsVal (s : List Char) : Nat := s.foldl (fun acc c => acc * 10 + (c.toNat - 48)) 0

/-- JavaScript Number on a hyphen-free piece of the argument: 0 on the
empty string, the value on a digit string, NaN (none) otherwise. -/
def jsNumber (s : List Char) : Option Nat :=
  if s.isEmpty then some 0
  else if s.all Char.isDigit then some (digitsVal s) else none

/-- The selected order list: either an inclusive range a-b (none models the
explicit null return when start > end; a NaN bound yields an empty loop) or
a comma-separated list (whose pieces are always plain digit strings, where
Number never yields NaN). -/
def parseIndices (arg : List Char) : Option (List Nat) :=
  if arg.contains '-' then
    let parts := splitChar '-' arg
    match jsNumber (parts.getD 0 []), jsNumber (parts.getD 1 []) with
    | some s, some e => if e < s then none else some (List.range' s (e - s + 1))
    | _, _ => some []
  else
    some ((splitChar ',' arg).map (fun p => if p.isEmpty then 0 else digitsVal p))

/-- Ascending stable sort of order numbers (JS sort with (a, b) => a - b). -/
def sortNat (l : List Nat) : List Nat := stableSort (fun a b => a < b) l

/-- The simple-consecutive loop: orders[i] = orders[i-1] + 1 for all i. -/
def chainSucc : List Nat → Bool
  | [] => true
  | [_] => true
  | a :: b :: rest => (b == a + 1) && chainSucc (b :: rest)

/-- One iteration of the break-point scan of the wrap-around branch: keep
the state on a consecutive pair, record the first gap index, and clear the
valid flag on a second gap (the source sets validWrapAround to false and
breaks). -/
def breakStep (l : List Nat) (st : Option Nat × Bool) (i : Nat) : Option Nat × Bool :=
  if l.getD i 0 == l.getD (i - 1) 0 + 1 then st
  else
    match st.1 with
    | none => (some i, st.2)
    | some _ => (st.1, false)

/-- The break-point scan of the wrap-around branch: first gap index, and
whether at most one gap was seen. -/
def breakScan (l : List Nat) : Option Nat × Bool :=
  (List.range' 1 (l.length - 1)).foldl (breakStep l) (none, true)

/-- The wrap-around validation of parseAddCommand: sorted ranks anchored at
1 and at maxOrder, then the break-point scan must report exactly one gap,
and the two pieces around it must anchor at 1 and maxOrder. -/
def wrapCheck (sortedOrders : List Nat) (maxOrder : Nat) : Bool :=
  if sortedOrders.head? == some 1 && sortedOrders.getLast? == some maxOrder then
    match breakScan sortedOrders with
    | (some breakPoint, true) =>
        (sortedOrders.take breakPoint).head? == some 1 &&
        (sortedOrders.drop breakPoint).getLast? == some maxOrder
    | _ => false
  else false

/-- Source parseAddCommand. -/
def parseAddCommand (cmd : String) (periphery : List Nat) : Option (List Nat) :=
  match matchAddRegex cmd with
  | none => none
  | some arg =>
    match parseIndices arg with
    | none => none
    | some indices =>
      let peripheryMap := periphery.enum.map (fun p => (p.2, p.1 + 1))
      let selected := peripheryMap.filter (fun v => indices.contains v.2)
      if selected.length < 2 then none
      else
        let orders := sortNat (selected.map (fun v => v.2))
        let isConsecutive := chainSucc orders
        let isConsecutive :=
          if !isConsecutive && 1 < orders.length then
            let maxOrder := periphery.length
            let sortedOrders := sortNat orders
            wrapCheck sortedOrders maxOrder
          else isConsecutive
        if isConsecutive then some (selected.map (fun v => v.1)) else none

/-- The neighbour list of idx collected by colorVertex. -/
def colorNeighbors (edges : List Edge) (idx : Nat) : List Nat :=
  (edges.filter (fun e => e.1 == idx || e.2 == idx)).map
    (fun e => if e.1 == idx then e.2 else e.1)

/-- The set of already-assigned neighbour colours (null and undefined
colours are filtered out, as in the source). -/
def usedColors (vertices : List Vertex) (edges : List Edge) (idx : Nat) : List Nat :=
  (colorNeighbors edges idx).filterMap (fun i => (vertices.getD i defVertex).color)

/-- Source colorVertex: first palette index (1-based) unused among the
already-assigned colors of the neighbours of idx, else 1. -/
def colorVertex (vertices : List Vertex) (edges : List Edge) (idx : Nat)
    (palette : List Nat) : Nat :=
  match (List.range' 1 palette.length).find?
      (fun c => !((usedColors vertices edges idx).contains c)) with
  | some c => c
  | none => 1

/-
Placement search (source findValidPosition).  The source computes
canvasWidth = Math.max(width, 800) and canvasHeight = Math.max(height, 600)
but never uses them afterwards: the bounds checks below read width and
height directly, so the two dead locals are omitted here.
-/

def distancesList : List Int := [60, 40, 80, 100, 120, 140, 160, 180, 200]

/-- Source findValidPosition. -/
def findValidPosition (vertices : List Vertex) (edges : List Edge)
    (peripheryIndices : List Nat) (width height : Q3) : Option Pt :=
  if peripheryIndices.length < 2 then none else
  let segmentVertices := peripheryIndices.map (fun idx => vertices.getD idx defVertex)
  let segLen := segmentVertices.length
  let centroid : Pt := segmentVertices.foldl
    (fun acc v => ⟨acc.x.add (v.pos.x.divNat segLen), acc.y.add (v.pos.y.divNat segLen)⟩)
    ⟨0, 0⟩
  let direction : Pt :=
    if peripheryIndices.length = 2 then
      let idx1 := peripheryIndices.getD 0 0
      let idx2 := peripheryIndices.getD 1 0
      let v1 := posAt vertices idx1
      let v2 := posAt vertices idx2
      let edgeVector : Pt := ⟨v2.x.sub v1.x, v2.y.sub v1.y⟩
      let perpVector : Pt := ⟨edgeVector.y.neg, edgeVector.x⟩
      let length := ((perpVector.x.mul perpVector.x).add (perpVector.y.mul perpVector.y)).sqrt
      let direction : Pt :=
        if (0 : Q3).blt length then ⟨perpVector.x.div length, perpVector.y.div length⟩
        else ⟨0, 0⟩
      let testPoint : Pt :=
        ⟨centroid.x.add (direction.x.mul 50), centroid.y.add (direction.y.mul 50)⟩
      let sumCount := vertices.enum.foldl (fun (sc : Q3 × Nat) p =>
        if peripheryIndices.contains p.1 then sc
        else (sc.1.add (Q3.hypot (testPoint.x.sub p.2.pos.x) (testPoint.y.sub p.2.pos.y)),
              sc.2 + 1))
        (0, 0)
      if 0 < sumCount.2 then
        let avgDistanceToOthers := sumCount.1.divNat sumCount.2
        let oppositePoint : Pt :=
          ⟨centroid.x.sub (direction.x.mul 50), centroid.y.sub (direction.y.mul 50)⟩
        let sumOpp := vertices.enum.foldl (fun (s : Q3) p =>
          if peripheryIndices.contains p.1 then s
          else s.add (Q3.hypot (oppositePoint.x.sub p.2.pos.x) (oppositePoint.y.sub p.2.pos.y)))
          0
        let avgDistanceOpposite := sumOpp.divNat sumCount.2
        if avgDistanceOpposite.bgt avgDistanceToOthers then ⟨direction.x.neg, direction.y.neg⟩
        else direction
      else direction
    else
      let graphCenter : Pt := vertices.foldl
        (fun acc v => ⟨acc.x.add (v.pos.x.divNat vertices.length),
                       acc.y.add (v.pos.y.divNat vertices.length)⟩)
        ⟨0, 0⟩
      let dir0 : Pt := ⟨centroid.x.sub graphCenter.x, centroid.y.sub graphCenter.y⟩
      let length := ((dir0.x.mul dir0.x).add (dir0.y.mul dir0.y)).sqrt
      if (0 : Q3).blt length then ⟨dir0.x.div length, dir0.y.div length⟩
      else ⟨1, 0⟩
  distancesList.findSome? (fun d =>
    let candidate : Pt := ⟨centroid.x.add (direction.x.mul (Q3.ofInt d)),
                           centroid.y.add (direction.y.mul (Q3.ofInt d))⟩
    if candidate.x.blt 30 || candidate.x.bgt (width.sub 30) ||
       candidate.y.blt 30 || candidate.y.bgt (height.sub 30) then none
    else if vertices.any (fun v =>
        hypotLt (candidate.x.sub v.pos.x) (candidate.y.sub v.pos.y) 44) then none
    else if peripheryIndices.any (fun idx =>
        edges.any (fun e =>
          if peripheryIndices.contains e.1 || peripheryIndices.contains e.2 then false
          else doLinesIntersect (posAt vertices idx) candidate
                 (posAt vertices e.1) (posAt vertices e.2))) then none
    else some candidate)

/-- Step 2 of addVertexToSegment: edges from the new vertex to every
segment vertex, pushed in segment order. -/
def starEdges (newIdx : Nat) (connectTo : List Nat) : List Edge :=
  connectTo.map (fun idx => (newIdx, idx))

/-- Step 3 of addVertexToSegment: close the segment cycle, adding each
missing consecutive edge (including the wrap-around pair). -/
def closeCycle (connectTo : List Nat) (es : List Edge) : List Edge :=
  (List.range connectTo.length).foldl (fun es i =>
    let a := connectTo.getD i 0
    let b := connectTo.getD ((i + 1) % connectTo.length) 0
    if es.any (fun e => (e.1 == a && e.2 == b) || (e.1 == b && e.2 == a)) then es
    else es ++ [(a, b)]) es

/-- The consecutive pairs of the segment (including wrap-around), the
segmentEdges array of the source. -/
def segmentPairs (connectTo : List Nat) : List (Nat × Nat) :=
  (List.range connectTo.length).map (fun i =>
    (connectTo.getD i 0, connectTo.getD ((i + 1) % connectTo.length) 0))

/-- One tracked push of the interior-repair step: add the edge unless its
canonical key is already in the tracked set. -/
def repairPush (st : List (Nat × Nat) × List Edge) (e : Edge) :
    List (Nat × Nat) × List Edge :=
  let k := canon e.1 e.2
  if st.1.contains k then st else (st.1 ++ [k], st.2 ++ [e])

/-- Process one candidate interior vertex (vi, v) for the triangle of the
segment pair (aI, bI) and the new position: skip the corners, and link an
inside vertex to all three corners. -/
def repairVertex (pA pB pos : Pt) (aI bI newIdx : Nat)
    (st : List (Nat × Nat) × List Edge) (vi : Nat × Vertex) :
    List (Nat × Nat) × List Edge :=
  if vi.1 == aI || vi.1 == bI || vi.1 == newIdx then st
  else if isPointInsideTriangle vi.2.pos pA pB pos then
    [(aI, vi.1), (bI, vi.1), (newIdx, vi.1)].foldl repairPush st
  else st

/-- Process one segment pair: test every pre-existing vertex against the
triangle of that pair and the new position. -/
def repairPair (prevVertices : List Vertex) (pos : Pt) (newIdx : Nat)
    (st : List (Nat × Nat) × List Edge) (pr : Nat × Nat) :
    List (Nat × Nat) × List Edge :=
  prevVertices.enum.foldl
    (repairVertex (posAt prevVertices pr.1) (posAt prevVertices pr.2) pos pr.1 pr.2 newIdx)
    st

/-- Step 4 of addVertexToSegment (interior repair): for each segment edge,
link every other pre-existing vertex lying inside the triangle of that edge
and the new position to all three corners, tracking the canonical-key set
alongside the growing edge list exactly as the source does. -/
def interiorRepair (prevVertices : List Vertex) (connectTo : List Nat)
    (pos : Pt) (newIdx : Nat) (es : List Edge) : List Edge :=
  ((segmentPairs connectTo).foldl (repairPair prevVertices pos newIdx)
    (canonEdges es, es)).2

/-- Result record { newVertices, newEdges } of addVertexToSegment. -/
structure InsertResult where
  newVertices : List Vertex
  newEdges : List Edge

deriving instance DecidableEq for InsertResult

/-- Source addVertexToSegment; the null rejection of a segment that is not
fully connected is none. -/
def addVertexToSegment (prev : Graph) (connectTo : List Nat) (pos : Pt) :
    Option InsertResult :=
  if !(isFullyConnected prev.vertices prev.edges connectTo) then none
  else
    let newIdx := prev.vertices.length
    let newVertices := prev.vertices ++ [⟨getNextVertexId prev.vertices, none, pos⟩]
    let newEdges := prev.edges ++ starEdges newIdx connectTo
    let newEdges := closeCycle connectTo newEdges
    let newEdges := interiorRepair prev.vertices connectTo pos newIdx newEdges
    some ⟨newVertices, newEdges⟩

/-- The A-command branch of the source handleCmdSubmit: every rejection
path returns the previous graph unchanged (warning text is not modelled);
a JavaScript exception inside getPeriphery is none. -/
def handleAddCommand (prev : Graph) (cmd : String) (width height : Q3) :
    Option Graph :=
  if prev.vertices.length < 3 then some prev
  else
    match getPeriphery prev.vertices prev.edges with
    | none => none
    | some periph =>
      if periph.length < 2 then some prev
      else
        match parseAddCommand cmd periph with
        | none => some prev
        | some connectTo =>
          if connectTo.length < 2 then some prev
          else if !(isFullyConnected prev.vertices prev.edges connectTo) then some prev
          else
            match findValidPosition prev.vertices prev.edges connectTo width height with
            | none => some prev
            | some pos =>
              match addVertexToSegment prev connectTo pos with
              | none => some prev
              | some result => some ⟨result.newVertices, result.newEdges⟩

/-
Re-layout engine (source redrawGraph).  The two calls to Math.random of the
fallback placements are the only nondeterminism in the engine; they are
passed in as the oracle parameters randA (per vertex and attempt, the two
random numbers of one attempt) and randJ (per vertex, the two random
numbers of the center-jitter fallback).  Everything else is the exact
deterministic computation of the source.
-/

def cosPi6 : Q3 := ⟨0, 1, 2, by decide⟩

def sinPi6 : Q3 := ⟨1, 0, 2, by decide⟩

def oneHalf : Q3 := ⟨1, 0, 2, by decide⟩

/-- State of the redraw loop: the repositioned full vertex array, the
already placed vertices, and the edges rebuilt so far. -/
structure RedrawState where
  newVertices : List Vertex
  currentVertices : List Vertex
  currentEdges : List Edge

/-- Push the edge (i, idx) unless either orientation is already present
(the inline some-checks of the source). -/
def pushIfAbsent (i idx : Nat) (es : List Edge) : List Edge :=
  if es.any (fun e => (e.1 == i && e.2 == idx) || (e.1 == idx && e.2 == i)) then es
  else es ++ [(i, idx)]

/-- The best-segment search of redrawGraph: all segment lengths from 2 to
min(periphery length, connection count + 2), all cyclic start offsets; the
last fully connected segment with a valid position and a match count at
least the running maximum wins. -/
def redrawSearch (currentVertices : List Vertex) (currentEdges : List Edge)
    (periphery : List Nat) (originalConnections : List Nat)
    (canvasWidth canvasHeight : Q3) : Option (List Nat × Pt) × Nat :=
  let maxSegLen := min periphery.length (originalConnections.length + 2)
  (List.range' 2 (maxSegLen - 1)).foldl (fun st segLen =>
    (List.range periphery.length).foldl (fun st startIdx =>
      let segment := (List.range segLen).map (fun j =>
        periphery.getD ((startIdx + j) % periphery.length) 0)
      if isFullyConnected currentVertices currentEdges segment then
        let matchCount := (segment.filter (fun idx => originalConnections.contains idx)).length
        match findValidPosition currentVertices currentEdges segment canvasWidth canvasHeight with
        | some pos => if st.2 ≤ matchCount then (some (segment, pos), matchCount) else st
        | none => st
      else st) st)
    ((none, 0) : Option (List Nat × Pt) × Nat)

/-- One iteration of the redraw loop (vertex index i from 3 upward). -/
def redrawStep (edges : List Edge) (canvasWidth canvasHeight cx cy : Q3)
    (randA : Nat → Nat → Q3 × Q3) (randJ : Nat → Q3 × Q3)
    (st : RedrawState) (i : Nat) : Option RedrawState :=
  let originalConnections := ((edges.filter (fun e => e.1 == i || e.2 == i)).map
    (fun e => if e.1 == i then e.2 else e.1)).filter (fun c => c < i)
  if originalConnections.length < 2 then some st
  else
    match getPeriphery st.currentVertices st.currentEdges with
    | none => none
    | some periphery =>
      match redrawSearch st.currentVertices st.currentEdges periphery
          originalConnections canvasWidth canvasHeight with
      | (some (bestSegment, bestPosition), _) =>
        let newVertices := st.newVertices.set i
          { st.newVertices.getD i defVertex with pos := bestPosition }
        let currentVertices := st.currentVertices ++ [newVertices.getD i defVertex]
        let ce := originalConnections.foldl (fun es idx => pushIfAbsent i idx es)
          st.currentEdges
        let ce := bestSegment.foldl (fun es idx => pushIfAbsent i idx es) ce
        let ce := (List.range bestSegment.length).foldl (fun es j =>
          let a := bestSegment.getD j 0
          let b := bestSegment.getD ((j + 1) % bestSegment.length) 0
          if es.any (fun e => (e.1 == a && e.2 == b) || (e.1 == b && e.2 == a)) then es
          else if edges.any (fun e => (e.1 == a && e.2 == b) || (e.1 == b && e.2 == a)) then
            es ++ [(a, b)]
          else es) ce
        let ce := ((edges.foldl (fun (st2 : List (Nat × Nat) × List Edge) e =>
          if (e.1 == i || e.2 == i) && max e.1 e.2 ≤ i then
            let k := canon e.1 e.2
            if st2.1.contains k then st2 else (st2.1 ++ [k], st2.2 ++ [e])
          else st2) ((canonEdges ce, ce) : List (Nat × Nat) × List Edge))).2
        some ⟨newVertices, currentVertices, ce⟩
      | (none, _) =>
        let attemptPos : Nat → Pt := fun attempt =>
          ⟨(50 : Q3).add ((randA i attempt).1.mul (canvasWidth.sub 100)),
           (50 : Q3).add ((randA i attempt).2.mul (canvasHeight.sub 100))⟩
        match (List.range 50).find? (fun attempt =>
          !(st.currentVertices.any (fun v =>
            hypotLt ((attemptPos attempt).x.sub v.pos.x)
                    ((attemptPos attempt).y.sub v.pos.y) 44))) with
        | some attempt =>
          let newVertices := st.newVertices.set i
            { st.newVertices.getD i defVertex with pos := attemptPos attempt }
          let currentVertices := st.currentVertices ++ [newVertices.getD i defVertex]
          let ce := originalConnections.foldl (fun es idx => pushIfAbsent i idx es)
            st.currentEdges
          some ⟨newVertices, currentVertices, ce⟩
        | none =>
          let pos : Pt :=
            ⟨cx.add (((randJ i).1.sub oneHalf).mul 100),
             cy.add (((randJ i).2.sub oneHalf).mul 100)⟩
          let newVertices := st.newVertices.set i
            { st.newVertices.getD i defVertex with pos := pos }
          let currentVertices := st.currentVertices ++ [newVertices.getD i defVertex]
          let ce := originalConnections.foldl (fun es idx => pushIfAbsent i idx es)
            st.currentEdges
          some ⟨newVertices, currentVertices, ce⟩

/-- Source redrawGraph. -/
def redrawGraph (randA : Nat → Nat → Q3 × Q3) (randJ : Nat → Q3 × Q3)
    (vertices : List Vertex) (edges : List Edge) (canvasWidth canvasHeight : Q3) :
    Option Graph :=
  if vertices.length < 3 then some ⟨vertices, edges⟩
  else
    let w := canvasWidth
    let h := canvasHeight
    let R := (if w.ble h then w else h).mul ⟨1, 0, 10, by decide⟩
    let cx := w.divNat 2
    let cy := h.divNat 2
    let newVertices := vertices.enum.map (fun p =>
      { p.2 with pos :=
          if p.1 < 3 then
            ⟨if p.1 = 0 then cx
             else if p.1 = 1 then cx.add (R.mul cosPi6) else cx.sub (R.mul cosPi6),
             if p.1 = 0 then cy.sub R else cy.add (R.mul sinPi6)⟩
          else ⟨0, 0⟩ })
    let currentVertices := newVertices.take 3
    let currentEdges := edges.filter (fun e => e.1 < 3 && e.2 < 3)
    match (List.range' 3 (vertices.length - 3)).foldlM
        (redrawStep edges canvasWidth canvasHeight cx cy randA randJ)
        (⟨newVertices, currentVertices, currentEdges⟩ : RedrawState) with
    | none => none
    | some st =>
      let finalEdgeSet := canonEdges st.currentEdges
      some ⟨st.newVertices,
        st.currentEdges ++ edges.filter (fun e => !(finalEdgeSet.contains (canon e.1 e.2)))⟩

/-
Concrete engine states used by the theorems below.
-/

/-- The seed triangle of the start action, for an (already clamped) canvas
w x h: R = min(w, h) / 10, center (w / 2, h / 2), apex above, base corners
at angle pi / 6. -/
def seedVertices (w h : Q3) : List Vertex :=
  let R := (if w.ble h then w else h).mul ⟨1, 0, 10, by decide⟩
  let cx := w.divNat 2
  let cy := h.divNat 2
  [⟨1, none, ⟨cx, cy.sub R⟩⟩,
   ⟨2, none, ⟨cx.add (R.mul cosPi6), cy.add (R.mul sinPi6)⟩⟩,
   ⟨3, none, ⟨cx.sub (R.mul cosPi6), cy.add (R.mul sinPi6)⟩⟩]

/-- The seed graph at the default 800 x 600 canvas. -/
def seedGraph : Graph := ⟨seedVertices 800 600, [(0, 1), (1, 2), (2, 0)]⟩

/-- A 4-vertex naturally constructed graph: the seed plus one insertion on
the 2-vertex periphery segment of ranks 1-2 (vertices 0 and 1); no vertex
lies inside any repair triangle of that insertion, so its edge set contains
no interior-repair edges. -/
def fourVertexGraph : Graph :=
  (handleAddCommand seedGraph "A, 1-2" 800 600).getD ⟨[], []⟩

/-- Zero random oracle for the redraw fallbacks (the runs evaluated below
never reach a fallback, so the oracle value is irrelevant). -/
def randZeroA : Nat → Nat → Q3 × Q3 := fun _ _ => (0, 0)

def randZeroJ : Nat → Q3 × Q3 := fun _ => (0, 0)

/-
Claim C8: shared-endpoint behaviour of doLinesIntersect.
-/

/-- The signed ccw expression: ccw a b c tests 0 < ccwE a b c. -/
def ccwE (a b c : Pt) : Q3 :=
  ((c.y.sub a.y).mul (b.x.sub a.x)).sub ((b.y.sub a.y).mul (c.x.sub a.x))

lemma ccw_eq_posB (a b c : Pt) : ccw a b c = (ccwE a b c).posB := rfl

section SignArith

variable {p pp q qq D DD : Int}

lemma flip_nonpos (hD : 0 < D) (hDD : 0 < DD) (hp : pp * D = -(p * DD))
    (h : 0 ≤ p) : pp ≤ 0 := by
  have h1 : 0 ≤ p * DD := mul_nonneg h hDD.le
  have h2 : pp * D ≤ 0 := by omega
  by_contra hc
  push_neg at hc
  exact absurd (mul_pos hc hD) (by omega)

lemma flip_pos_of_neg (hD : 0 < D) (hDD : 0 < DD) (hp : pp * D = -(p * DD))
    (h : p < 0) : 0 < pp := by
  have h1 : p * DD < 0 := mul_neg_of_neg_of_pos h hDD
  have h2 : 0 < pp * D := by omega
  by_contra hc
  push_neg at hc
  exact absurd (mul_nonpos_of_nonpos_of_nonneg hc hD.le) (by omega)

lemma flip_zero (_hD : 0 < D) (hDD : 0 < DD) (hp : pp * D = -(p * DD))
    (h : pp = 0) : p = 0 := by
  subst h
  simp at hp
  rcases hp with h | h
  · exact h
  · omega

lemma sq_lt_transfer (hD : 0 < D) (hDD : 0 < DD) (hp : pp * D = -(p * DD))
    (hq : qq * D = -(q * DD)) (h : 3 * (q * q) < p * p) : 3 * (qq * qq) < pp * pp := by
  have e1 : pp * D * (pp * D) = p * DD * (p * DD) := by rw [hp]; ring
  have e2 : qq * D * (qq * D) = q * DD * (q * DD) := by rw [hq]; ring
  have hmul : 3 * (q * q) * (DD * DD) < p * p * (DD * DD) :=
    mul_lt_mul_of_pos_right h (mul_pos hDD hDD)
  have key : 3 * (qq * qq) * (D * D) < pp * pp * (D * D) := by nlinarith
  exact lt_of_mul_lt_mul_right key (mul_pos hD hD).le

/-- Characterisation of the sign test on a numerator pair. -/
lemma posPair_true_iff (a b : Int) : Q3.posPair a b = true ↔
    ((0 ≤ a ∧ 0 ≤ b ∧ (0 < a ∨ 0 < b)) ∨
     (0 ≤ a ∧ b < 0 ∧ 3 * (b * b) < a * a) ∨
     (a < 0 ∧ 0 ≤ b ∧ a * a < 3 * (b * b))) := by
  unfold Q3.posPair
  split_ifs with h1 h2 h3 <;> simp_all <;> omega

/-- Exclusivity of the sign test across a represented negation: two
numerator pairs that are cross-denominator negatives of each other cannot
both test positive. -/
lemma posPair_excl (hD : 0 < D) (hDD : 0 < DD)
    (hp : pp * D = -(p * DD)) (hq : qq * D = -(q * DD))
    (h1 : Q3.posPair p q = true) (h2 : Q3.posPair pp qq = true) : False := by
  have hps : p * DD = -(pp * D) := by omega
  have hqs : q * DD = -(qq * D) := by omega
  rw [posPair_true_iff] at h1 h2
  rcases h1 with ⟨ha, hb, hab⟩ | ⟨ha, hb, hab⟩ | ⟨ha, hb, hab⟩ <;>
    rcases h2 with ⟨ha2, hb2, hab2⟩ | ⟨ha2, hb2, hab2⟩ | ⟨ha2, hb2, hab2⟩
  · -- both strictly positive in the closed first quadrant: all collapse to 0
    have hpp := flip_nonpos hD hDD hp ha
    have hqq := flip_nonpos hD hDD hq hb
    have hp0 := flip_zero hD hDD hp (le_antisymm hpp ha2)
    have hq0 := flip_zero hD hDD hq (le_antisymm hqq hb2)
    omega
  · have hpp := flip_nonpos hD hDD hp ha
    have hpp0 : pp = 0 := le_antisymm hpp ha2
    nlinarith [mul_self_nonneg qq]
  · have hqq := flip_nonpos hD hDD hq hb
    have hqq0 : qq = 0 := le_antisymm hqq hb2
    nlinarith [mul_self_nonneg pp]
  · have hpdown := flip_nonpos hDD hD hps ha2
    have hp0 : p = 0 := le_antisymm hpdown ha
    nlinarith [mul_self_nonneg q]
  · have := flip_pos_of_neg hD hDD hq hb
    omega
  · exact absurd (sq_lt_transfer hD hDD hp hq hab) (by omega)
  · have hqdown := flip_nonpos hDD hD hqs hb2
    have hq0 : q = 0 := le_antisymm hqdown hb
    nlinarith [mul_self_nonneg p]
  · have := @sq_lt_transfer pp p qq q DD D hDD hD hps hqs hab2
    omega
  · have := flip_pos_of_neg hD hDD hp ha
    omega

end SignArith

lemma Q3.den_posInt (x : Q3) : (0 : Int) < (x.den : Int) := by
  exact_mod_cast x.dpos

/-- Swapping the first two arguments negates the ccw expression (stated on
the cross-multiplied numerators of the representations). -/
lemma ccwE_swap12_na (a b c : Pt) :
    (ccwE b a c).na * ((ccwE a b c).den : Int) =
      -((ccwE a b c).na * ((ccwE b a c).den : Int)) := by
  simp only [ccwE, Q3.sub, Q3.add, Q3.neg, Q3.mul]
  push_cast
  ring

lemma ccwE_swap12_nb (a b c : Pt) :
    (ccwE b a c).nb * ((ccwE a b c).den : Int) =
      -((ccwE a b c).nb * ((ccwE b a c).den : Int)) := by
  simp only [ccwE, Q3.sub, Q3.add, Q3.neg, Q3.mul]
  push_cast
  ring

/-- Swapping the last two arguments negates the ccw expression. -/
lemma ccwE_swap23_na (a b c : Pt) :
    (ccwE a c b).na * ((ccwE a b c).den : Int) =
      -((ccwE a b c).na * ((ccwE a c b).den : Int)) := by
  simp only [ccwE, Q3.sub, Q3.add, Q3.neg, Q3.mul]
  push_cast
  ring

lemma ccwE_swap23_nb (a b c : Pt) :
    (ccwE a c b).nb * ((ccwE a b c).den : Int) =
      -((ccwE a b c).nb * ((ccwE a c b).den : Int)) := by
  simp only [ccwE, Q3.sub, Q3.add, Q3.neg, Q3.mul]
  push_cast
  ring

/-- ccw is false when the first two points coincide. -/
lemma ccw_self12 (a c : Pt) : ccw a a c = false := by
  have hna : (ccwE a a c).na = 0 := by
    simp only [ccwE, Q3.sub, Q3.add, Q3.neg, Q3.mul]
    ring
  have hnb : (ccwE a a c).nb = 0 := by
    simp only [ccwE, Q3.sub, Q3.add, Q3.neg, Q3.mul]
    ring
  show (ccwE a a c).posB = false
  unfold Q3.posB
  rw [hna, hnb]
  decide

/-- ccw is false when the third point equals the first. -/
lemma ccw_self13 (a b : Pt) : ccw a b a = false := by
  have hna : (ccwE a b a).na = 0 := by
    simp only [ccwE, Q3.sub, Q3.add, Q3.neg, Q3.mul]
    ring
  have hnb : (ccwE a b a).nb = 0 := by
    simp only [ccwE, Q3.sub, Q3.add, Q3.neg, Q3.mul]
    ring
  show (ccwE a b a).posB = false
  unfold Q3.posB
  rw [hna, hnb]
  decide

/-- ccw is false when the third point equals the second. -/
lemma ccw_self23 (a b : Pt) : ccw a b b = false := by
  have hna : (ccwE a b b).na = 0 := by
    simp only [ccwE, Q3.sub, Q3.add, Q3.neg, Q3.mul]
    ring
  have hnb : (ccwE a b b).nb = 0 := by
    simp only [ccwE, Q3.sub, Q3.add, Q3.neg, Q3.mul]
    ring
  show (ccwE a b b).posB = false
  unfold Q3.posB
  rw [hna, hnb]
  decide

/-- The two orientations of a triple cannot both be strictly positive:
swapping the first two arguments. -/
lemma ccw_swap12_false (a b c : Pt) (h : ccw a b c = true) : ccw b a c = false := by
  cases hbac : ccw b a c
  · rfl
  · exfalso
    have h1 : Q3.posPair (ccwE a b c).na (ccwE a b c).nb = true := h
    have h2 : Q3.posPair (ccwE b a c).na (ccwE b a c).nb = true := hbac
    exact posPair_excl (ccwE a b c).den_posInt (ccwE b a c).den_posInt
      (ccwE_swap12_na a b c) (ccwE_swap12_nb a b c) h1 h2

/-- The two orientations of a triple cannot both be strictly positive:
swapping the last two arguments. -/
lemma ccw_swap23_false (a b c : Pt) (h : ccw a b c = true) : ccw a c b = false := by
  cases hacb : ccw a c b
  · rfl
  · exfalso
    have h1 : Q3.posPair (ccwE a b c).na (ccwE a b c).nb = true := h
    have h2 : Q3.posPair (ccwE a c b).na (ccwE a c b).nb = true := hacb
    exact posPair_excl (ccwE a b c).den_posInt (ccwE a c b).den_posInt
      (ccwE_swap23_na a b c) (ccwE_swap23_nb a b c) h1 h2

/-- C8 (amended): doLinesIntersect never reports a crossing for two
segments that share their first endpoints (p1 = q1) or share their second
endpoints (p2 = q2).  The other two sharing patterns (p1 = q2, p2 = q1)
can be reported as crossings, see the counterexample below. -/
theorem doLinesIntersect_shared_endpoint (p1 p2 q1 q2 : Pt)
    (h : p1 = q1 ∨ p2 = q2) : doLinesIntersect p1 p2 q1 q2 = false := by
  rcases h with h | h
  · subst h
    unfold doLinesIntersect
    rw [ccw_self12, ccw_self13]
    cases h2 : ccw p1 p2 q2
    · simp [h2]
    · rw [ccw_swap12_false p1 p2 q2 h2]
      simp
  · subst h
    unfold doLinesIntersect
    rw [ccw_self13, ccw_self23]
    cases h2 : ccw p1 p2 q1
    · simp [h2]
    · rw [ccw_swap23_false p1 p2 q1 h2]
      simp

def cePtA : Pt := ⟨0, 0⟩

def cePtB : Pt := ⟨1, 0⟩

def cePtC : Pt := ⟨1, 1⟩

def cePtD : Pt := ⟨0, 1⟩

/-- C8 counterexample: the segments cePtA-cePtB and cePtB-cePtC share the
endpoint cePtB (the pattern p2 = q1), yet doLinesIntersect reports a
crossing, refuting the claim that every shared-endpoint touch yields
false. -/
theorem doLinesIntersect_shared_endpoint_counterexample :
    doLinesIntersect cePtA cePtB cePtB cePtC = true := by decide

/-- Witness for the amended C8 theorem at a concrete shared first
endpoint. -/
theorem doLinesIntersect_shared_endpoint_witness :
    (cePtA = cePtA ∨ cePtB = cePtD) ∧
    doLinesIntersect cePtA cePtB cePtA cePtD = false :=
  ⟨Or.inl rfl,
   doLinesIntersect_shared_endpoint cePtA cePtB cePtA cePtD (Or.inl rfl)⟩

/-
Claim C7: termination and length bound of getPeriphery.
-/

lemma peripheryWalk_length_le (vertices : List Vertex) (adj : List (List Nat))
    (start : Nat) :
    ∀ (fuel : Nat) (periphery : List Nat) (currentOpt prevVertex : Option Nat)
      (res : List Nat),
      peripheryWalk vertices adj start fuel periphery currentOpt prevVertex = some res →
      periphery.length < vertices.length →
      res.length ≤ vertices.length := by
  intro fuel
  induction fuel with
  | zero =>
    intro periphery currentOpt prevVertex res hres hlt
    unfold peripheryWalk at hres
    cases currentOpt with
    | none => exact absurd hres (by simp)
    | some current =>
      simp only at hres
      split at hres <;>
        [skip; split at hres] <;>
        · injection hres with h
          subst h
          simp
          omega
  | succ fuel ih =>
    intro periphery currentOpt prevVertex res hres hlt
    unfold peripheryWalk at hres
    cases currentOpt with
    | none => exact absurd hres (by simp)
    | some current =>
      simp only at hres
      split at hres
      · injection hres with h
        subst h
        simp
        omega
      · split at hres
        · exact ih _ _ _ _ hres (by simpa using ‹(periphery ++ [current]).length < vertices.length›)
        · injection hres with h
          subst h
          simp
          omega

/-- C7: getPeriphery terminates on every input (it is a total function of
this embedding; the source loop guard periphery.length < vertices.length
is the decreasing fuel) and any returned periphery has at most as many
entries as there are vertices.  Out-of-range edges or a walk step with no
neighbours are JavaScript TypeErrors, modelled as none. -/
theorem getPeriphery_length_le (vertices : List Vertex) (edges : List Edge)
    (p : List Nat) (h : getPeriphery vertices edges = some p) :
    p.length ≤ vertices.length := by
  unfold getPeriphery at h
  split at h
  · injection h with h
    subst h
    simp
  · split at h
    · injection h with h
      subst h
      simp
      omega
    · split at h
      · exact absurd h (by simp)
      · exact peripheryWalk_length_le vertices _ _ _ _ _ _ _ h (by simp; omega)


set_option maxRecDepth 100000 in
/-- Witness for C7 on the concrete four-vertex graph: its periphery walk
returns [2, 0, 3, 1], of length 4 = number of vertices. -/
theorem getPeriphery_length_le_witness :
    getPeriphery fourVertexGraph.vertices fourVertexGraph.edges = some [2, 0, 3, 1] ∧
    ([2, 0, 3, 1] : List Nat).length ≤ fourVertexGraph.vertices.length := by
  constructor
  · decide
  · exact getPeriphery_length_le fourVertexGraph.vertices fourVertexGraph.edges
      [2, 0, 3, 1] (by decide)

/-
Claim C6: greedy colour choice.
-/

lemma find?_range'_minimal (p : Nat → Bool) :
    ∀ (k s x : Nat), (List.range' s k).find? p = some x →
      ∀ c, s ≤ c → c < x → p c = false := by
  intro k
  induction k with
  | zero => intro s x hx; simp at hx
  | succ k ih =>
    intro s x hx c hs hc
    rw [List.range'_succ] at hx
    simp only [List.find?_cons] at hx
    cases hps : p s with
    | true =>
      rw [hps] at hx
      injection hx with h
      omega
    | false =>
      rw [hps] at hx
      rcases Nat.eq_or_lt_of_le hs with h | h
      · subst h; exact hps
      · exact ih (s + 1) x hx c h hc

/-- C6: colorVertex returns the smallest palette index in 1..|palette| that
is not an already-assigned colour of any neighbour of idx, and returns 1
when every palette index is such a colour.  The well-formedness hypothesis
keeps every neighbour lookup in range (out-of-range lookups are a
JavaScript TypeError in the source). -/
theorem colorVertex_greedy (vertices : List Vertex) (edges : List Edge)
    (idx : Nat) (palette : List Nat)
    (hpal : palette ≠ [])
    (_hwf : ∀ e ∈ edges, e.1 < vertices.length ∧ e.2 < vertices.length) :
    (1 ≤ colorVertex vertices edges idx palette ∧
      colorVertex vertices edges idx palette ≤ palette.length) ∧
    (∀ c, 1 ≤ c → c < colorVertex vertices edges idx palette →
      (usedColors vertices edges idx).contains c = true) ∧
    ((usedColors vertices edges idx).contains (colorVertex vertices edges idx palette)
        = false ∨
      (colorVertex vertices edges idx palette = 1 ∧
        ∀ c, 1 ≤ c → c ≤ palette.length →
          (usedColors vertices edges idx).contains c = true)) := by
  cases hfind : (List.range' 1 palette.length).find?
      (fun c => !((usedColors vertices edges idx).contains c)) with
  | some c =>
    have hcv : colorVertex vertices edges idx palette = c := by
      unfold colorVertex
      rw [hfind]
    rw [hcv]
    have hmem := List.mem_of_find?_eq_some hfind
    have hrange : 1 ≤ c ∧ c < 1 + palette.length := by
      simpa [List.mem_range'_1] using hmem
    have hpc := List.find?_some hfind
    refine ⟨⟨hrange.1, by omega⟩, ?_, Or.inl (by simpa using hpc)⟩
    intro cc h1 h2
    have := find?_range'_minimal _ palette.length 1 c hfind cc h1 h2
    simpa using this
  | none =>
    have hcv : colorVertex vertices edges idx palette = 1 := by
      unfold colorVertex
      rw [hfind]
    rw [hcv]
    have hall := List.find?_eq_none.mp hfind
    refine ⟨⟨le_refl 1, by have := List.length_pos.mpr hpal; omega⟩, ?_, Or.inr ⟨rfl, ?_⟩⟩
    · intro c h1 h2
      omega
    · intro c h1 h2
      have := hall c (by simp [List.mem_range'_1]; omega)
      simpa using this

def coloredVertices : List Vertex :=
  [⟨1, some 1, ⟨0, 0⟩⟩, ⟨2, some 2, ⟨10, 0⟩⟩, ⟨3, none, ⟨0, 10⟩⟩, ⟨4, none, ⟨10, 10⟩⟩]

def coloredEdges : List Edge := [(0, 1), (0, 3), (1, 3), (2, 3)]

/-- Witness for C6: vertex 3 has neighbours coloured 1 and 2 and an
uncoloured neighbour, so the greedy choice over the palette [1, 2, 3, 4]
is 3. -/
theorem colorVertex_greedy_witness :
    colorVertex coloredVertices coloredEdges 3 [1, 2, 3, 4] = 3 ∧
    (([1, 2, 3, 4] : List Nat) ≠ [] ∧
      ((1 ≤ colorVertex coloredVertices coloredEdges 3 [1, 2, 3, 4] ∧
        colorVertex coloredVertices coloredEdges 3 [1, 2, 3, 4] ≤
          ([1, 2, 3, 4] : List Nat).length) ∧
      (∀ c, 1 ≤ c → c < colorVertex coloredVertices coloredEdges 3 [1, 2, 3, 4] →
        (usedColors coloredVertices coloredEdges 3).contains c = true) ∧
      ((usedColors coloredVertices coloredEdges 3).contains
          (colorVertex coloredVertices coloredEdges 3 [1, 2, 3, 4]) = false ∨
        (colorVertex coloredVertices coloredEdges 3 [1, 2, 3, 4] = 1 ∧
          ∀ c, 1 ≤ c → c ≤ ([1, 2, 3, 4] : List Nat).length →
            (usedColors coloredVertices coloredEdges 3).contains c = true)))) :=
  ⟨by decide,
   by decide,
   colorVertex_greedy coloredVertices coloredEdges 3 [1, 2, 3, 4] (by decide)
     (by decide)⟩

/-
Claim C4: the fully-connected gate.
-/

/-- C4: whenever the segment resolved by the command pipeline is not fully
connected, addVertexToSegment rejects it with null at any position, and the
A-command handler returns the previous graph value unchanged. -/
theorem insertion_rejected_when_not_fully_connected
    (prev : Graph) (cmd : String) (width height : Q3)
    (periph connectTo : List Nat) (pos : Pt)
    (hper : getPeriphery prev.vertices prev.edges = some periph)
    (hparse : parseAddCommand cmd periph = some connectTo)
    (hfc : isFullyConnected prev.vertices prev.edges connectTo = false) :
    addVertexToSegment prev connectTo pos = none ∧
    handleAddCommand prev cmd width height = some prev := by
  constructor
  · unfold addVertexToSegment
    rw [hfc]
    rfl
  · unfold handleAddCommand
    split
    · rfl
    · rw [hper]
      simp only
      split
      · rfl
      · rw [hparse]
        simp only
        split
        · rfl
        · rw [hfc]
          rfl

set_option maxRecDepth 100000 in
/-- Witness for C4: on the four-vertex graph the command ranks 1-3 resolve
to the periphery segment [2, 0, 3], which is not fully connected (there is
no edge between vertices 2 and 3), so the handler leaves the graph
unchanged and addVertexToSegment returns null. -/
theorem insertion_rejected_witness :
    getPeriphery fourVertexGraph.vertices fourVertexGraph.edges = some [2, 0, 3, 1] ∧
    parseAddCommand "A, 1-3" [2, 0, 3, 1] = some [2, 0, 3] ∧
    isFullyConnected fourVertexGraph.vertices fourVertexGraph.edges [2, 0, 3] = false ∧
    (addVertexToSegment fourVertexGraph [2, 0, 3] ⟨0, 0⟩ = none ∧
      handleAddCommand fourVertexGraph "A, 1-3" 800 600 = some fourVertexGraph) :=
  ⟨by decide, by decide, by decide,
   insertion_rejected_when_not_fully_connected fourVertexGraph "A, 1-3" 800 600
     [2, 0, 3, 1] [2, 0, 3] ⟨0, 0⟩ (by decide) (by decide) (by decide)⟩

/-
Claim C10: cycle closing adds nothing on a fully connected segment.
-/

lemma canon_eq_iff (x y a b : Nat) :
    canon x y = canon a b ↔ (x = a ∧ y = b) ∨ (x = b ∧ y = a) := by
  unfold canon
  split_ifs <;> simp [Prod.ext_iff] <;> omega

lemma canon_comm (a b : Nat) : canon a b = canon b a := by
  unfold canon
  split_ifs <;> simp [Prod.ext_iff] <;> omega

lemma contains_canonEdges_iff (es : List Edge) (a b : Nat) :
    (canonEdges es).contains (canon a b) = true ↔
      ∃ e ∈ es, e = (a, b) ∨ e = (b, a) := by
  unfold canonEdges
  rw [List.elem_iff, List.mem_map]
  constructor
  · rintro ⟨e, he, hc⟩
    rcases (canon_eq_iff e.1 e.2 a b).mp hc with ⟨h1, h2⟩ | ⟨h1, h2⟩
    · exact ⟨e, he, Or.inl (by rw [← h1, ← h2])⟩
    · exact ⟨e, he, Or.inr (by rw [← h1, ← h2])⟩
  · rintro ⟨e, he, h | h⟩ <;> subst h
    · exact ⟨(a, b), he, rfl⟩
    · exact ⟨(b, a), he, (canon_eq_iff b a a b).mpr (Or.inr ⟨rfl, rfl⟩)⟩

lemma any_orient_iff (es : List Edge) (a b : Nat) :
    (es.any (fun e => (e.1 == a && e.2 == b) || (e.1 == b && e.2 == a))) = true ↔
      ∃ e ∈ es, e = (a, b) ∨ e = (b, a) := by
  rw [List.any_eq_true]
  constructor
  · rintro ⟨e, he, hc⟩
    simp only [Bool.or_eq_true, Bool.and_eq_true, beq_iff_eq] at hc
    rcases hc with ⟨h1, h2⟩ | ⟨h1, h2⟩
    · exact ⟨e, he, Or.inl (by rw [← h1, ← h2])⟩
    · exact ⟨e, he, Or.inr (by rw [← h1, ← h2])⟩
  · rintro ⟨e, he, h | h⟩ <;> subst h <;> exact ⟨_, he, by simp⟩

lemma isFullyConnected_spec (vs : List Vertex) (es : List Edge) (seg : List Nat)
    (h : isFullyConnected vs es seg = true) :
    ∀ i j, i < j → j < seg.length →
      (canonEdges es).contains (canon (seg.getD i 0) (seg.getD j 0)) = true := by
  intro i j hij hj
  unfold isFullyConnected at h
  rw [List.all_eq_true] at h
  have hi := h i (by simp [List.mem_range]; omega)
  rw [List.all_eq_true] at hi
  exact hi j (by simp [List.mem_range'_1]; omega)

lemma closeCycle_eq_self (connectTo : List Nat) (es : List Edge)
    (h : ∀ i, i < connectTo.length →
      es.any (fun e =>
        (e.1 == connectTo.getD i 0 && e.2 == connectTo.getD ((i + 1) % connectTo.length) 0) ||
        (e.1 == connectTo.getD ((i + 1) % connectTo.length) 0 && e.2 == connectTo.getD i 0))
        = true) :
    closeCycle connectTo es = es := by
  unfold closeCycle
  suffices h2 : ∀ l : List Nat, (∀ i ∈ l, i < connectTo.length) →
      l.foldl (fun es i =>
        let a := connectTo.getD i 0
        let b := connectTo.getD ((i + 1) % connectTo.length) 0
        if es.any (fun e => (e.1 == a && e.2 == b) || (e.1 == b && e.2 == a)) then es
        else es ++ [(a, b)]) es = es by
    exact h2 (List.range connectTo.length) (by intro i hi; simpa [List.mem_range] using hi)
  intro l
  induction l with
  | nil => intro _; rfl
  | cons a as ih =>
    intro hmem
    simp only [List.foldl_cons]
    rw [if_pos (h a (hmem a (by simp)))]
    exact ih (fun i hi => hmem i (by simp [hi]))

/-- C10: when the segment passes the fully-connected gate (and has the
length of at least 2 that every caller guarantees), the cycle-closing step
adds no edge, so a successful insertion adds exactly the star edges from
the new vertex to the segment, plus interior-repair edges. -/
theorem closeCycle_adds_nothing (prev : Graph) (connectTo : List Nat) (pos : Pt)
    (hfc : isFullyConnected prev.vertices prev.edges connectTo = true)
    (hlen : 2 ≤ connectTo.length) :
    closeCycle connectTo (prev.edges ++ starEdges prev.vertices.length connectTo) =
      prev.edges ++ starEdges prev.vertices.length connectTo ∧
    addVertexToSegment prev connectTo pos = some
      ⟨prev.vertices ++ [⟨getNextVertexId prev.vertices, none, pos⟩],
       interiorRepair prev.vertices connectTo pos prev.vertices.length
         (prev.edges ++ starEdges prev.vertices.length connectTo)⟩ := by
  have hstep : ∀ i, i < connectTo.length →
      (prev.edges ++ starEdges prev.vertices.length connectTo).any (fun e =>
        (e.1 == connectTo.getD i 0 && e.2 == connectTo.getD ((i + 1) % connectTo.length) 0) ||
        (e.1 == connectTo.getD ((i + 1) % connectTo.length) 0 && e.2 == connectTo.getD i 0))
        = true := by
    intro i hi
    set a := connectTo.getD i 0
    set b := connectTo.getD ((i + 1) % connectTo.length) 0
    have hcontains : (canonEdges prev.edges).contains (canon a b) = true := by
      by_cases hcase : i + 1 < connectTo.length
      · have : (i + 1) % connectTo.length = i + 1 := Nat.mod_eq_of_lt hcase
        have := isFullyConnected_spec prev.vertices prev.edges connectTo hfc i (i + 1)
          (by omega) hcase
        simpa [a, b, Nat.mod_eq_of_lt hcase] using this
      · have hi1 : i = connectTo.length - 1 := by omega
        have hmod : (i + 1) % connectTo.length = 0 := by
          have : i + 1 = connectTo.length := by omega
          simp [this]
        have := isFullyConnected_spec prev.vertices prev.edges connectTo hfc 0 i
          (by omega) hi
        rw [canon_comm]
        simpa [a, b, hmod] using this
    rw [any_orient_iff]
    rcases (contains_canonEdges_iff prev.edges a b).mp hcontains with ⟨e, he, hor⟩
    exact ⟨e, List.mem_append_left _ he, hor⟩
  have hclose := closeCycle_eq_self connectTo
    (prev.edges ++ starEdges prev.vertices.length connectTo) hstep
  refine ⟨hclose, ?_⟩
  unfold addVertexToSegment
  rw [hfc]
  simp only [Bool.not_true, Bool.false_eq_true, if_false]
  rw [hclose]

/-- Witness for C10 at the seed triangle with the full-periphery segment
[0, 1, 2] and the position the placement search returns for it. -/
theorem closeCycle_adds_nothing_witness :
    isFullyConnected seedGraph.vertices seedGraph.edges [0, 1, 2] = true ∧
    2 ≤ ([0, 1, 2] : List Nat).length ∧
    (closeCycle [0, 1, 2] (seedGraph.edges ++ starEdges seedGraph.vertices.length [0, 1, 2]) =
        seedGraph.edges ++ starEdges seedGraph.vertices.length [0, 1, 2] ∧
      addVertexToSegment seedGraph [0, 1, 2] ⟨500, 300⟩ = some
        ⟨seedGraph.vertices ++ [⟨getNextVertexId seedGraph.vertices, none, ⟨500, 300⟩⟩],
         interiorRepair seedGraph.vertices [0, 1, 2] ⟨500, 300⟩ seedGraph.vertices.length
           (seedGraph.edges ++ starEdges seedGraph.vertices.length [0, 1, 2])⟩) :=
  ⟨by decide, by decide,
   closeCycle_adds_nothing seedGraph [0, 1, 2] ⟨500, 300⟩ (by decide) (by decide)⟩

/-
Claim C5: interior repair connects enclosed vertices to all three corners.
-/

/-- The tracked key set of the repair state is the canonical image of the
tracked edge list (the source keeps the Set and the array in sync). -/
def RepairWf (st : List (Nat × Nat) × List Edge) : Prop := st.1 = canonEdges st.2

lemma repairPush_wf (st : List (Nat × Nat) × List Edge) (e : Edge)
    (h : RepairWf st) : RepairWf (repairPush st e) := by
  unfold RepairWf at *
  simp only [repairPush]
  split
  · exact h
  · simp [canonEdges, h]

lemma repairPush_mono (st : List (Nat × Nat) × List Edge) (e : Edge) (k : Nat × Nat)
    (h : k ∈ st.1) : k ∈ (repairPush st e).1 := by
  simp only [repairPush]
  split
  · exact h
  · simp [h]

lemma repairPush_adds (st : List (Nat × Nat) × List Edge) (e : Edge) :
    canon e.1 e.2 ∈ (repairPush st e).1 := by
  simp only [repairPush]
  split
  · next hc => exact List.elem_iff.mp hc
  · simp

section TrackedFold

variable {α : Type}

lemma foldl_track_mono (f : (List (Nat × Nat) × List Edge) → α → List (Nat × Nat) × List Edge)
    (hmono : ∀ st a k, k ∈ st.1 → k ∈ (f st a).1) :
    ∀ (l : List α) (st : List (Nat × Nat) × List Edge) (k : Nat × Nat),
      k ∈ st.1 → k ∈ (l.foldl f st).1 := by
  intro l
  induction l with
  | nil => intro st k h; exact h
  | cons a as ih => intro st k h; exact ih _ _ (hmono _ _ _ h)

lemma foldl_track_wf (f : (List (Nat × Nat) × List Edge) → α → List (Nat × Nat) × List Edge)
    (hwf : ∀ st a, RepairWf st → RepairWf (f st a)) :
    ∀ (l : List α) (st : List (Nat × Nat) × List Edge),
      RepairWf st → RepairWf (l.foldl f st) := by
  intro l
  induction l with
  | nil => intro st h; exact h
  | cons a as ih => intro st h; exact ih _ (hwf _ _ h)

lemma foldl_track_establish
    (f : (List (Nat × Nat) × List Edge) → α → List (Nat × Nat) × List Edge)
    (hmono : ∀ st a k, k ∈ st.1 → k ∈ (f st a).1) (x : α) (k : Nat × Nat)
    (hx : ∀ st, k ∈ (f st x).1) :
    ∀ (l : List α) (st : List (Nat × Nat) × List Edge), x ∈ l → k ∈ (l.foldl f st).1 := by
  intro l
  induction l with
  | nil => intro st h; exact absurd h (List.not_mem_nil x)
  | cons a as ih =>
    intro st hmem
    rcases List.mem_cons.mp hmem with h | h
    · subst h
      exact foldl_track_mono f hmono as _ _ (hx st)
    · exact ih _ h

end TrackedFold

lemma foldl_repairPush_adds (l : List Edge) (st : List (Nat × Nat) × List Edge)
    (e : Edge) (he : e ∈ l) : canon e.1 e.2 ∈ (l.foldl repairPush st).1 :=
  foldl_track_establish repairPush repairPush_mono e (canon e.1 e.2)
    (fun st => repairPush_adds st e) l st he

lemma repairVertex_mono (pA pB pos : Pt) (aI bI newIdx : Nat)
    (st : List (Nat × Nat) × List Edge) (vi : Nat × Vertex) (k : Nat × Nat)
    (h : k ∈ st.1) : k ∈ (repairVertex pA pB pos aI bI newIdx st vi).1 := by
  unfold repairVertex
  split
  · exact h
  · split
    · exact foldl_track_mono repairPush repairPush_mono _ _ _ h
    · exact h

lemma repairVertex_wf (pA pB pos : Pt) (aI bI newIdx : Nat)
    (st : List (Nat × Nat) × List Edge) (vi : Nat × Vertex)
    (h : RepairWf st) : RepairWf (repairVertex pA pB pos aI bI newIdx st vi) := by
  unfold repairVertex
  split
  · exact h
  · split
    · exact foldl_track_wf repairPush repairPush_wf _ _ h
    · exact h

lemma repairVertex_establish (pA pB pos : Pt) (aI bI newIdx : Nat)
    (st : List (Nat × Nat) × List Edge) (vi : Nat) (v : Vertex)
    (hskip : (vi == aI || vi == bI || vi == newIdx) = false)
    (hin : isPointInsideTriangle v.pos pA pB pos = true) :
    canon aI vi ∈ (repairVertex pA pB pos aI bI newIdx st (vi, v)).1 ∧
    canon bI vi ∈ (repairVertex pA pB pos aI bI newIdx st (vi, v)).1 ∧
    canon newIdx vi ∈ (repairVertex pA pB pos aI bI newIdx st (vi, v)).1 := by
  unfold repairVertex
  rw [if_neg (by simp_all), if_pos hin]
  refine ⟨?_, ?_, ?_⟩
  · exact foldl_repairPush_adds _ st (aI, vi) (by simp)
  · exact foldl_repairPush_adds _ st (bI, vi) (by simp)
  · exact foldl_repairPush_adds _ st (newIdx, vi) (by simp)

lemma repairPair_mono (prevVertices : List Vertex) (pos : Pt) (newIdx : Nat)
    (st : List (Nat × Nat) × List Edge) (pr : Nat × Nat) (k : Nat × Nat)
    (h : k ∈ st.1) : k ∈ (repairPair prevVertices pos newIdx st pr).1 :=
  foldl_track_mono _ (fun st a k => repairVertex_mono _ _ _ _ _ _ st a k) _ _ _ h

lemma repairPair_wf (prevVertices : List Vertex) (pos : Pt) (newIdx : Nat)
    (st : List (Nat × Nat) × List Edge) (pr : Nat × Nat)
    (h : RepairWf st) : RepairWf (repairPair prevVertices pos newIdx st pr) :=
  foldl_track_wf _ (fun st a => repairVertex_wf _ _ _ _ _ _ st a) _ _ h

/-- Shape of a successful insertion: the gate holds, the new vertex array
is the old one plus the fresh vertex, and the edge list is the interior
repair applied after cycle closing over the starred edge list. -/
lemma addVertexToSegment_eq_some (prev : Graph) (connectTo : List Nat) (pos : Pt)
    (res : InsertResult) (hres : addVertexToSegment prev connectTo pos = some res) :
    isFullyConnected prev.vertices prev.edges connectTo = true ∧
    res.newVertices = prev.vertices ++ [⟨getNextVertexId prev.vertices, none, pos⟩] ∧
    res.newEdges = interiorRepair prev.vertices connectTo pos prev.vertices.length
      (closeCycle connectTo (prev.edges ++ starEdges prev.vertices.length connectTo)) := by
  unfold addVertexToSegment at hres
  split at hres
  · simp at hres
  · next hgate =>
    simp only [Option.some.injEq] at hres
    refine ⟨by simpa using hgate, ?_, ?_⟩
    · rw [← hres]
    · rw [← hres]

/-- C5: after a successful insertion, every pre-existing vertex other than
the two endpoints of a consecutive segment pair that lies inside the
triangle of that pair and the new position (by the embedded
point-in-triangle test) is connected in the output edge set to both
endpoints and to the new vertex. -/
theorem interior_repair_connects (prev : Graph) (connectTo : List Nat) (pos : Pt)
    (res : InsertResult) (hres : addVertexToSegment prev connectTo pos = some res)
    (a b : Nat) (hpair : (a, b) ∈ segmentPairs connectTo)
    (vi : Nat) (v : Vertex) (hv : prev.vertices[vi]? = some v)
    (hva : vi ≠ a) (hvb : vi ≠ b)
    (hin : isPointInsideTriangle v.pos (posAt prev.vertices a) (posAt prev.vertices b) pos
      = true) :
    canon a vi ∈ canonEdges res.newEdges ∧
    canon b vi ∈ canonEdges res.newEdges ∧
    canon prev.vertices.length vi ∈ canonEdges res.newEdges := by
  obtain ⟨-, -, hedges⟩ := addVertexToSegment_eq_some prev connectTo pos res hres
  have hvlen : vi < prev.vertices.length := (List.getElem?_eq_some.mp hv).1
  have hskip : (vi == a || vi == b || vi == prev.vertices.length) = false := by
    simp only [Bool.or_eq_false_iff, beq_eq_false_iff_ne]
    exact ⟨⟨hva, hvb⟩, by omega⟩
  have hmemenum : (vi, v) ∈ prev.vertices.enum := List.mk_mem_enum_iff_getElem?.mpr hv
  set es0 := closeCycle connectTo (prev.edges ++ starEdges prev.vertices.length connectTo)
  set n := prev.vertices.length
  have hkey : ∀ k, (k = canon a vi ∨ k = canon b vi ∨ k = canon n vi) →
      k ∈ ((segmentPairs connectTo).foldl (repairPair prev.vertices pos n)
        (canonEdges es0, es0)).1 := by
    intro k hk
    refine foldl_track_establish (repairPair prev.vertices pos n)
      (fun st pr k hmem => repairPair_mono prev.vertices pos n st pr k hmem)
      (a, b) k ?_ (segmentPairs connectTo) (canonEdges es0, es0) hpair
    intro st
    have hest := repairVertex_establish (posAt prev.vertices a) (posAt prev.vertices b)
      pos a b n st vi v hskip hin
    have := foldl_track_establish
      (repairVertex (posAt prev.vertices a) (posAt prev.vertices b) pos a b n)
      (fun st x k hmem => repairVertex_mono _ _ _ _ _ _ st x k hmem)
      (vi, v) k ?_ prev.vertices.enum st hmemenum
    · exact this
    · intro st2
      rcases hk with h | h | h <;> rw [h]
      · exact (repairVertex_establish _ _ pos a b n st2 vi v hskip hin).1
      · exact (repairVertex_establish _ _ pos a b n st2 vi v hskip hin).2.1
      · exact (repairVertex_establish _ _ pos a b n st2 vi v hskip hin).2.2
  have hwf : RepairWf ((segmentPairs connectTo).foldl (repairPair prev.vertices pos n)
      (canonEdges es0, es0)) :=
    foldl_track_wf _ (fun st pr hw => repairPair_wf prev.vertices pos n st pr hw)
      (segmentPairs connectTo) (canonEdges es0, es0) rfl
  have hfinal : canonEdges res.newEdges =
      ((segmentPairs connectTo).foldl (repairPair prev.vertices pos n)
        (canonEdges es0, es0)).1 := by
    rw [hedges]
    unfold interiorRepair
    rw [← hwf]
  refine ⟨?_, ?_, ?_⟩
  · rw [hfinal]; exact hkey _ (Or.inl rfl)
  · rw [hfinal]; exact hkey _ (Or.inr (Or.inl rfl))
  · rw [hfinal]; exact hkey _ (Or.inr (Or.inr rfl))

def repairPrev : Graph :=
  ⟨[⟨1, none, ⟨0, 0⟩⟩, ⟨2, none, ⟨100, 0⟩⟩, ⟨3, none, ⟨50, 10⟩⟩],
   [(0, 1)]⟩

def repairRes : InsertResult :=
  (addVertexToSegment repairPrev [0, 1] ⟨50, 100⟩).getD ⟨[], []⟩

/-- Witness for C5: inserting on the segment [0, 1] of repairPrev with the
new vertex at (50, 100) encloses vertex 2 at (50, 10) inside the triangle
of the pair (0, 1) and the new position, and the result connects vertex 2
to 0, to 1 and to the new vertex 3. -/
theorem interior_repair_connects_witness :
    addVertexToSegment repairPrev [0, 1] ⟨50, 100⟩ = some repairRes ∧
    (0, 1) ∈ segmentPairs [0, 1] ∧
    repairPrev.vertices[2]? = some ⟨3, none, ⟨50, 10⟩⟩ ∧
    isPointInsideTriangle (⟨3, none, (⟨50, 10⟩ : Pt)⟩ : Vertex).pos
      (posAt repairPrev.vertices 0) (posAt repairPrev.vertices 1) ⟨50, 100⟩ = true ∧
    (canon 0 2 ∈ canonEdges repairRes.newEdges ∧
      canon 1 2 ∈ canonEdges repairRes.newEdges ∧
      canon repairPrev.vertices.length 2 ∈ canonEdges repairRes.newEdges) :=
  ⟨by decide, by decide, by decide, by decide,
   interior_repair_connects repairPrev [0, 1] ⟨50, 100⟩ repairRes (by decide)
     0 1 (by decide) 2 ⟨3, none, ⟨50, 10⟩⟩ (by decide) (by decide) (by decide)
     (by decide)⟩

/-
Claim C2: the re-layout edge set is a superset of the input edge set.
-/

lemma canonEdges_append (l1 l2 : List Edge) :
    canonEdges (l1 ++ l2) = canonEdges l1 ++ canonEdges l2 := by
  unfold canonEdges
  exact List.map_append _ l1 l2

/-- The final reconciliation pass restores every original edge key. -/
lemma reconcile_superset (orig cur : List Edge) (e : Edge) (he : e ∈ orig) :
    canon e.1 e.2 ∈ canonEdges
      (cur ++ orig.filter (fun e2 => !((canonEdges cur).contains (canon e2.1 e2.2)))) := by
  rw [canonEdges_append]
  cases hc : (canonEdges cur).contains (canon e.1 e.2) with
  | true => exact List.mem_append_left _ (List.elem_iff.mp hc)
  | false =>
    refine List.mem_append_right _ ?_
    unfold canonEdges
    exact List.mem_map_of_mem _ (List.mem_filter.mpr ⟨he, by
      simp only [canonEdges] at hc
      rw [hc]
      rfl⟩)

/-- C2: for every graph with at least 3 vertices and any canvas bounds and
random oracle, every input edge is canonically present in the edge set the
re-layout returns. -/
theorem redrawGraph_edges_superset (randA : Nat → Nat → Q3 × Q3)
    (randJ : Nat → Q3 × Q3) (vertices : List Vertex) (edges : List Edge)
    (cw ch : Q3) (out : Graph)
    (_h3 : 3 ≤ vertices.length)
    (hout : redrawGraph randA randJ vertices edges cw ch = some out) :
    ∀ e ∈ edges, canon e.1 e.2 ∈ canonEdges out.edges := by
  intro e he
  unfold redrawGraph at hout
  split at hout
  · injection hout with h
    subst h
    unfold canonEdges
    exact List.mem_map_of_mem _ he
  · dsimp only at hout
    split at hout
    · simp at hout
    · injection hout with h
      subst h
      exact reconcile_superset edges _ e he

def redrawOut : Graph :=
  (redrawGraph randZeroA randZeroJ fourVertexGraph.vertices fourVertexGraph.edges
    800 600).getD ⟨[], []⟩

set_option maxRecDepth 400000 in
/-- Witness for C2 on the four-vertex graph. -/
theorem redrawGraph_edges_superset_witness :
    3 ≤ fourVertexGraph.vertices.length ∧
    redrawGraph randZeroA randZeroJ fourVertexGraph.vertices fourVertexGraph.edges
      800 600 = some redrawOut ∧
    ∀ e ∈ fourVertexGraph.edges, canon e.1 e.2 ∈ canonEdges redrawOut.edges :=
  ⟨by decide, by decide,
   redrawGraph_edges_superset randZeroA randZeroJ fourVertexGraph.vertices
     fourVertexGraph.edges 800 600 redrawOut (by decide) (by decide)⟩

set_option maxRecDepth 400000 in
/-- C3 counterexample: fourVertexGraph is built from the seed by a single
successful insertion on the segment of ranks 1-2 (so its edge set contains
no interior-repair edges: no pre-existing vertex lies inside any triangle
formed during that insertion), yet re-layout returns an edge set strictly
larger than the input: the edge between vertices 2 and 3, absent from the
input, is added when vertex 3 is re-inserted on the chosen segment
[2, 0, 1]. -/
theorem relayout_adds_edge_counterexample :
    handleAddCommand seedGraph "A, 1-2" 800 600 = some fourVertexGraph ∧
    (canonEdges fourVertexGraph.edges).contains (2, 3) = false ∧
    redrawGraph randZeroA randZeroJ fourVertexGraph.vertices fourVertexGraph.edges
      800 600 = some redrawOut ∧
    (canonEdges redrawOut.edges).contains (2, 3) = true := by
  refine ⟨by decide, by decide, by decide, by decide⟩

/-
Claim C3: machinery characterising where redrawGraph edges come from.
-/

lemma getD_mem_or {α : Type} (l : List α) (i : Nat) (d : α) :
    l.getD i d ∈ l ∨ l.getD i d = d := by
  by_cases h : i < l.length
  · rw [List.getD_eq_getElem l d h]
    exact Or.inl (l.getElem_mem h)
  · exact Or.inr (List.getD_eq_default l d (by omega))

lemma stableInsert_mem (lt : Nat → Nat → Bool) (a x : Nat) :
    ∀ l, x ∈ stableInsert lt a l → x ∈ a :: l := by
  intro l
  induction l with
  | nil => intro h; simpa [stableInsert] using h
  | cons b bs ih =>
    intro h
    unfold stableInsert at h
    split at h
    · rcases List.mem_cons.mp h with h | h
      · simp [h]
      · have := ih h
        rcases List.mem_cons.mp this with h | h <;> simp [h]
    · rcases List.mem_cons.mp h with h | h <;> simp [h]

lemma stableSort_mem (lt : Nat → Nat → Bool) (x : Nat) :
    ∀ l, x ∈ stableSort lt l → x ∈ l := by
  intro l
  induction l with
  | nil => intro h; simpa [stableSort] using h
  | cons a as ih =>
    intro h
    unfold stableSort at h
    have := stableInsert_mem lt a x _ h
    rcases List.mem_cons.mp this with h | h
    · simp [h]
    · simp [ih h]

/-- Every neighbour stored by buildAdj is a valid vertex index. -/
lemma buildAdj_mem (n : Nat) (edges : List Edge) :
    ∀ (acc adj : List (List Nat)),
      (∀ l ∈ acc, ∀ x ∈ l, x < n) →
      edges.foldlM (fun adj e =>
        if e.1 < n ∧ e.2 < n then
          let adj1 := adj.set e.1 (adj.getD e.1 [] ++ [e.2])
          some (adj1.set e.2 (adj1.getD e.2 [] ++ [e.1]))
        else none) acc = some adj →
      ∀ l ∈ adj, ∀ x ∈ l, x < n := by
  induction edges with
  | nil =>
    intro acc adj hacc heq
    simp at heq
    subst heq
    exact hacc
  | cons e es ih =>
    intro acc adj hacc heq
    rw [List.foldlM_cons] at heq
    split at heq
    · next hlt =>
      dsimp only at heq
      rw [Option.bind_eq_bind, Option.some_bind] at heq
      have hmem1 : ∀ l ∈ acc.set e.1 (acc.getD e.1 [] ++ [e.2]), ∀ x ∈ l, x < n := by
        intro l hl x hx
        rcases List.mem_or_eq_of_mem_set hl with h | h
        · exact hacc l h x hx
        · subst h
          rcases List.mem_append.mp hx with h | h
          · rcases getD_mem_or acc e.1 [] with hg | hg
            · exact hacc _ hg x h
            · rw [hg] at h; simp at h
          · simp at h; omega
      refine ih _ adj ?_ heq
      intro l hl x hx
      rcases List.mem_or_eq_of_mem_set hl with h | h
      · exact hmem1 l h x hx
      · subst h
        rcases List.mem_append.mp hx with h | h
        · rcases getD_mem_or (acc.set e.1 (acc.getD e.1 [] ++ [e.2])) e.2 [] with hg | hg
          · exact hmem1 _ hg x h
          · rw [hg] at h; simp at h
        · simp at h; omega
    · simp at heq

lemma peripheryStart_lt (vertices : List Vertex) (h : 0 < vertices.length) :
    peripheryStart vertices < vertices.length := by
  unfold peripheryStart
  suffices h2 : ∀ (l : List Nat) (acc : Nat), (∀ i ∈ l, i < vertices.length) →
      acc < vertices.length →
      l.foldl (fun start i =>
        if ((posAt vertices i).x.blt (posAt vertices start).x ||
            ((posAt vertices i).x.beq (posAt vertices start).x &&
             (posAt vertices i).y.blt (posAt vertices start).y))
        then i else start) acc < vertices.length by
    exact h2 (List.range vertices.length) 0 (by intro i hi; simpa [List.mem_range] using hi) h
  intro l
  induction l with
  | nil => intro acc _ hacc; exact hacc
  | cons a as ih =>
    intro acc hmem hacc
    simp only [List.foldl_cons]
    split
    · exact ih _ (fun i hi => hmem i (by simp [hi])) (hmem a (by simp))
    · exact ih _ (fun i hi => hmem i (by simp [hi])) hacc

lemma walkNext_mem (sortedNeighbors : List Nat) (prevVertex : Option Nat) (x : Nat)
    (h : walkNext sortedNeighbors prevVertex = some x) :
    x ∈ sortedNeighbors ∨ x = 0 := by
  unfold walkNext at h
  cases prevVertex with
  | none => exact Or.inl (List.mem_of_mem_head? h)
  | some prev =>
    dsimp only at h
    cases hidx : sortedNeighbors.indexOf? prev with
    | none =>
      rw [hidx] at h
      exact Or.inl (List.mem_of_mem_head? h)
    | some prevIndex =>
      rw [hidx] at h
      injection h with h
      subst h
      exact getD_mem_or sortedNeighbors _ 0

lemma adj_getD_mem (adj : List (List Nat)) (n c : Nat)
    (hadj : ∀ l ∈ adj, ∀ x ∈ l, x < n) : ∀ x ∈ adj.getD c [], x < n := by
  intro x hx
  rcases getD_mem_or adj c [] with h | h
  · exact hadj _ h x hx
  · rw [h] at hx; simp at hx

lemma peripheryWalk_mem (vertices : List Vertex) (adj : List (List Nat)) (start : Nat)
    (hadj : ∀ l ∈ adj, ∀ x ∈ l, x < vertices.length) (hn : 0 < vertices.length) :
    ∀ (fuel : Nat) (periphery : List Nat) (currentOpt prevVertex : Option Nat)
      (res : List Nat),
      peripheryWalk vertices adj start fuel periphery currentOpt prevVertex = some res →
      (∀ x ∈ periphery, x < vertices.length) →
      (∀ c, currentOpt = some c → c < vertices.length) →
      ∀ x ∈ res, x < vertices.length := by
  intro fuel
  induction fuel with
  | zero =>
    intro periphery currentOpt prevVertex res hres hper hcur
    unfold peripheryWalk at hres
    cases currentOpt with
    | none => simp at hres
    | some current =>
      have hcu := hcur current rfl
      simp only at hres
      split at hres <;> [skip; split at hres] <;>
        · injection hres with h
          subst h
          intro x hx
          rcases List.mem_append.mp hx with h | h
          · exact hper x h
          · simp at h; omega
  | succ fuel ih =>
    intro periphery currentOpt prevVertex res hres hper hcur
    unfold peripheryWalk at hres
    cases currentOpt with
    | none => simp at hres
    | some current =>
      have hcu := hcur current rfl
      simp only at hres
      split at hres
      · injection hres with h
        subst h
        intro x hx
        rcases List.mem_append.mp hx with h | h
        · exact hper x h
        · simp at h; omega
      · split at hres
        · refine ih _ _ _ res hres ?_ ?_
          · intro x hx
            rcases List.mem_append.mp hx with h | h
            · exact hper x h
            · simp at h; omega
          · intro c hc
            rcases walkNext_mem _ _ _ hc with h | h
            · have := stableSort_mem _ _ _ h
              exact adj_getD_mem adj vertices.length current hadj c this
            · omega
        · injection hres with h
          subst h
          intro x hx
          rcases List.mem_append.mp hx with h | h
          · exact hper x h
          · simp at h; omega

/-- Every index returned by getPeriphery is a valid vertex index. -/
lemma getPeriphery_mem (vertices : List Vertex) (edges : List Edge) (p : List Nat)
    (h : getPeriphery vertices edges = some p) : ∀ x ∈ p, x < vertices.length := by
  unfold getPeriphery at h
  split at h
  · injection h with h; subst h; simp
  · next h3 =>
    split at h
    · next hlen =>
      injection h with h
      subst h
      intro x hx
      rw [hlen]
      simp at hx
      rcases hx with h | h | h <;> omega
    · split at h
      · simp at h
      · next adjv heqadj =>
        refine peripheryWalk_mem vertices adjv (peripheryStart vertices) ?_ (by omega)
          vertices.length [] (some (peripheryStart vertices)) none p h (by simp) ?_
        · unfold buildAdj at heqadj
          refine buildAdj_mem vertices.length edges _ adjv ?_ heqadj
          intro l hl x hx
          rw [List.eq_of_mem_replicate hl] at hx
          simp at hx
        · intro c hc
          injection hc with hc
          subst hc
          exact peripheryStart_lt vertices (by omega)

/-- Provenance of one edge of the rebuilt list: either it is canonically an
edge of the input, or it joins a re-inserted vertex (index at least 3) to
an earlier-placed vertex. -/
def EdgeProv (edges : List Edge) (e : Edge) : Prop :=
  canon e.1 e.2 ∈ canonEdges edges ∨ (3 ≤ e.1 ∧ e.2 < e.1)

lemma foldl_edge_invariant {α : Type} (f : List Edge → α → List Edge)
    (P : Edge → Prop) (l : List α) :
    ∀ (es : List Edge), (∀ e ∈ es, P e) →
      (∀ es2 a, a ∈ l → (∀ e ∈ es2, P e) → ∀ e ∈ f es2 a, P e) →
      ∀ e ∈ l.foldl f es, P e := by
  induction l with
  | nil => intro es h0 _ e he; exact h0 e he
  | cons a as ih =>
    intro es h0 hstep e he
    exact ih (f es a) (hstep es a (by simp) h0)
      (fun es2 b hb => hstep es2 b (by simp [hb])) e he

lemma pushIfAbsent_prov (edges : List Edge) (i idx : Nat) (es : List Edge)
    (h0 : ∀ e ∈ es, EdgeProv edges e) (hi : 3 ≤ i) (hidx : idx < i) :
    ∀ e ∈ pushIfAbsent i idx es, EdgeProv edges e := by
  unfold pushIfAbsent
  split
  · exact h0
  · intro e he
    rcases List.mem_append.mp he with h | h
    · exact h0 e h
    · simp at h
      subst h
      exact Or.inr ⟨hi, hidx⟩

lemma any_orient_canon (edges : List Edge) (a b : Nat)
    (h : (edges.any (fun e => (e.1 == a && e.2 == b) || (e.1 == b && e.2 == a))) = true) :
    canon a b ∈ canonEdges edges := by
  rcases (any_orient_iff edges a b).mp h with ⟨e, he, hor⟩
  rcases hor with hor | hor <;> subst hor
  · exact List.mem_map_of_mem _ he
  · rw [canon_comm]
    exact List.mem_map_of_mem _ he

/-- Any best segment produced by the redraw search consists of periphery
values and the default 0. -/
lemma redrawSearch_mem (currentVertices : List Vertex) (currentEdges : List Edge)
    (periphery : List Nat) (originalConnections : List Nat) (cw ch : Q3)
    (bseg : List Nat) (bpos : Pt)
    (h : (redrawSearch currentVertices currentEdges periphery originalConnections
      cw ch).1 = some (bseg, bpos)) :
    ∀ x ∈ bseg, x ∈ periphery ∨ x = 0 := by
  unfold redrawSearch at h
  set P : Option (List Nat × Pt) × Nat → Prop := fun st =>
    ∀ seg pos, st.1 = some (seg, pos) → ∀ x ∈ seg, x ∈ periphery ∨ x = 0 with hP
  have hgen : ∀ (l : List Nat) (st : Option (List Nat × Pt) × Nat), P st →
      P (l.foldl (fun st segLen =>
        (List.range periphery.length).foldl (fun st startIdx =>
          let segment := (List.range segLen).map (fun j =>
            periphery.getD ((startIdx + j) % periphery.length) 0)
          if isFullyConnected currentVertices currentEdges segment then
            let matchCount := (segment.filter
              (fun idx => originalConnections.contains idx)).length
            match findValidPosition currentVertices currentEdges segment cw ch with
            | some pos => if st.2 ≤ matchCount then (some (segment, pos), matchCount) else st
            | none => st
          else st) st) st) := by
    intro l
    induction l with
    | nil => intro st h0; exact h0
    | cons segLen rest ihl =>
      intro st h0
      refine ihl _ ?_
      have hinner : ∀ (l2 : List Nat) (st2 : Option (List Nat × Pt) × Nat), P st2 →
          P (l2.foldl (fun st startIdx =>
            let segment := (List.range segLen).map (fun j =>
              periphery.getD ((startIdx + j) % periphery.length) 0)
            if isFullyConnected currentVertices currentEdges segment then
              let matchCount := (segment.filter
                (fun idx => originalConnections.contains idx)).length
              match findValidPosition currentVertices currentEdges segment cw ch with
              | some pos => if st.2 ≤ matchCount then (some (segment, pos), matchCount) else st
              | none => st
            else st) st2) := by
        intro l2
        induction l2 with
        | nil => intro st2 h2; exact h2
        | cons startIdx rest2 ih2 =>
          intro st2 h2
          refine ih2 _ ?_
          dsimp only
          split
          · split
            · split
              · intro seg pos hseg x hx
                injection hseg with hseg
                injection hseg with hseg hposx
                subst hseg
                rcases List.mem_map.mp hx with ⟨j, _, hj⟩
                subst hj
                exact getD_mem_or periphery _ 0
              · exact h2
            · exact h2
          · exact h2
      exact hinner _ st h0
  exact hgen _ ((none, 0) : Option (List Nat × Pt) × Nat) (by intro seg pos hseg; simp [hP] at hseg) bseg bpos h

lemma foldl_state_invariant {σ α : Type} (f : σ → α → σ) (P : σ → Prop) (l : List α) :
    ∀ s, P s → (∀ s a, a ∈ l → P s → P (f s a)) → P (l.foldl f s) := by
  induction l with
  | nil => intro s h0 _; exact h0
  | cons a as ih =>
    intro s h0 hstep
    exact ih (f s a) (hstep s a (by simp) h0) (fun s2 b hb => hstep s2 b (by simp [hb]))

/-- One redraw iteration preserves the edge provenance invariant and grows
the placed-vertex list by at most one. -/
lemma redrawStep_prov (edges : List Edge) (cw ch cx cy : Q3)
    (randA : Nat → Nat → Q3 × Q3) (randJ : Nat → Q3 × Q3)
    (st st2 : RedrawState) (i : Nat) (hi : 3 ≤ i)
    (hlen : st.currentVertices.length ≤ i)
    (hP : ∀ e ∈ st.currentEdges, EdgeProv edges e)
    (hstep : redrawStep edges cw ch cx cy randA randJ st i = some st2) :
    (∀ e ∈ st2.currentEdges, EdgeProv edges e) ∧
    st2.currentVertices.length ≤ i + 1 := by
  unfold redrawStep at hstep
  dsimp only at hstep
  split at hstep
  · injection hstep with h
    subst h
    exact ⟨hP, by omega⟩
  · split at hstep
    · simp at hstep
    · next periphery hper =>
      have hperi := getPeriphery_mem _ _ _ hper
      split at hstep
      · next bseg bpos mm hsrch =>
        have hbseg : ∀ x ∈ bseg, x < i := by
          intro x hx
          rcases redrawSearch_mem st.currentVertices st.currentEdges periphery _ cw ch
            bseg bpos (by rw [hsrch]) x hx with h | h
          · have := hperi x h
            omega
          · omega
        injection hstep with h
        subst h
        have hstepOC : ∀ (es2 : List Edge) (idx : Nat),
            idx ∈ ((edges.filter (fun e => e.1 == i || e.2 == i)).map
              (fun e => if e.1 == i then e.2 else e.1)).filter (fun c => c < i) →
            (∀ e ∈ es2, EdgeProv edges e) →
            ∀ e ∈ pushIfAbsent i idx es2, EdgeProv edges e := by
          intro es2 idx hidx h2
          have : idx < i := by
            have := (List.mem_filter.mp hidx).2
            simpa using this
          exact pushIfAbsent_prov edges i idx es2 h2 hi this
        constructor
        · dsimp only
          refine foldl_state_invariant _
            (fun st2 : List (Nat × Nat) × List Edge => ∀ e ∈ st2.2, EdgeProv edges e)
            edges _ ?_ ?_
          · show ∀ e ∈ _, EdgeProv edges e
            refine foldl_edge_invariant _ _ _ _ ?_ ?_
            · refine foldl_edge_invariant _ _ _ _ ?_ ?_
              · refine foldl_edge_invariant _ _ _ _ hP ?_
                intro es2 idx hidx h2
                exact hstepOC es2 idx hidx h2
              · intro es2 idx hidx h3
                exact pushIfAbsent_prov edges i idx es2 h3 hi (hbseg idx hidx)
            · intro es2 j _ h4
              dsimp only
              split
              · exact h4
              · split
                · next hany =>
                  intro e he
                  rcases List.mem_append.mp he with h | h
                  · exact h4 e h
                  · rcases List.mem_singleton.mp h with rfl
                    exact Or.inl (any_orient_canon edges _ _ hany)
                · exact h4
          · intro s2 e2 he2 h5
            dsimp only
            split
            · split
              · exact h5
              · intro e he
                rcases List.mem_append.mp he with h | h
                · exact h5 e h
                · simp at h
                  subst h
                  exact Or.inl (List.mem_map_of_mem _ he2)
            · exact h5
        · dsimp only
          rw [List.length_append]
          simp
          omega
      · split at hstep
        · injection hstep with h
          subst h
          constructor
          · dsimp only
            refine foldl_edge_invariant _ _ _ st.currentEdges hP ?_
            intro es2 idx hidx h2
            have : idx < i := by
              have := (List.mem_filter.mp hidx).2
              simpa using this
            exact pushIfAbsent_prov edges i idx es2 h2 hi this
          · dsimp only
            rw [List.length_append]
            simp
            omega
        · injection hstep with h
          subst h
          constructor
          · dsimp only
            refine foldl_edge_invariant _ _ _ st.currentEdges hP ?_
            intro es2 idx hidx h2
            have : idx < i := by
              have := (List.mem_filter.mp hidx).2
              simpa using this
            exact pushIfAbsent_prov edges i idx es2 h2 hi this
          · dsimp only
            rw [List.length_append]
            simp
            omega

lemma redrawSteps_prov (edges : List Edge) (cw ch cx cy : Q3)
    (randA : Nat → Nat → Q3 × Q3) (randJ : Nat → Q3 × Q3) :
    ∀ (k i0 : Nat) (st stf : RedrawState), 3 ≤ i0 →
      st.currentVertices.length ≤ i0 →
      (∀ e ∈ st.currentEdges, EdgeProv edges e) →
      (List.range' i0 k).foldlM (redrawStep edges cw ch cx cy randA randJ) st
        = some stf →
      ∀ e ∈ stf.currentEdges, EdgeProv edges e := by
  intro k
  induction k with
  | zero =>
    intro i0 st stf _ _ hP hfold
    simp at hfold
    subst hfold
    exact hP
  | succ k ih =>
    intro i0 st stf hi0 hlen hP hfold
    rw [List.range'_succ, List.foldlM_cons] at hfold
    cases hst1 : redrawStep edges cw ch cx cy randA randJ st i0 with
    | none =>
      rw [hst1] at hfold
      simp at hfold
    | some st1 =>
      rw [hst1] at hfold
      rw [Option.bind_eq_bind, Option.some_bind] at hfold
      obtain ⟨hP1, hlen1⟩ := redrawStep_prov edges cw ch cx cy randA randJ st st1 i0
        hi0 hlen hP hst1
      exact ih (i0 + 1) st1 stf (by omega) hlen1 hP1 hfold

/-- C3 (amended): re-layout can add edges that were not in the input, even
for graphs with no interior-repair edges (see the counterexample above);
what does hold is that every output edge is either canonically an input
edge, or an edge added for a re-inserted vertex: it joins a vertex of index
at least 3 to an earlier-placed vertex of smaller index. -/
theorem redrawGraph_added_edges (randA : Nat → Nat → Q3 × Q3)
    (randJ : Nat → Q3 × Q3) (vertices : List Vertex) (edges : List Edge)
    (cw ch : Q3) (out : Graph)
    (hout : redrawGraph randA randJ vertices edges cw ch = some out) :
    ∀ e ∈ out.edges,
      canon e.1 e.2 ∈ canonEdges edges ∨ (3 ≤ e.1 ∧ e.2 < e.1) := by
  unfold redrawGraph at hout
  split at hout
  · injection hout with h
    subst h
    intro e he
    exact Or.inl (List.mem_map_of_mem _ he)
  · dsimp only at hout
    split at hout
    · simp at hout
    · next stf hfold =>
      injection hout with h
      subst h
      intro e he
      rcases List.mem_append.mp he with h | h
      · refine redrawSteps_prov edges cw ch _ _ randA randJ _ 3 _ stf (by omega) ?_ ?_
          hfold e h
        · rw [List.length_take]
          omega
        · intro e2 he2
          exact Or.inl (List.mem_map_of_mem _ (List.mem_filter.mp he2).1)
      · exact Or.inl (List.mem_map_of_mem _ (List.mem_filter.mp h).1)

set_option maxRecDepth 400000 in
/-- Witness for the amended C3 theorem on the four-vertex graph. -/
theorem redrawGraph_added_edges_witness :
    redrawGraph randZeroA randZeroJ fourVertexGraph.vertices fourVertexGraph.edges
      800 600 = some redrawOut ∧
    ∀ e ∈ redrawOut.edges,
      canon e.1 e.2 ∈ canonEdges fourVertexGraph.edges ∨ (3 ≤ e.1 ∧ e.2 < e.1) :=
  ⟨by decide,
   redrawGraph_added_edges randZeroA randZeroJ fourVertexGraph.vertices
     fourVertexGraph.edges 800 600 redrawOut (by decide)⟩

/-
C9: the acceptance gate of parseAddCommand.  The spec-side reformulation
replaces the break-point scan and its take/drop anchor checks with a
direct count of the gaps in the sorted rank list.
-/

lemma stableInsert_length (lt : Nat → Nat → Bool) (a : Nat) :
    ∀ l : List Nat, (stableInsert lt a l).length = l.length + 1 := by
  intro l
  induction l with
  | nil => rfl
  | cons b bs ih =>
    unfold stableInsert
    split
    · simpa using ih
    · rfl

lemma stableSort_length (lt : Nat → Nat → Bool) :
    ∀ l : List Nat, (stableSort lt l).length = l.length := by
  intro l
  induction l with
  | nil => rfl
  | cons a as ih =>
    unfold stableSort
    rw [stableInsert_length, ih, List.length_cons]

lemma sortNat_length (l : List Nat) : (sortNat l).length = l.length :=
  stableSort_length _ l

/-- A gap at position i of the sorted rank list. -/
def gapAt (l : List Nat) (i : Nat) : Bool := !(l.getD i 0 == l.getD (i - 1) 0 + 1)

/-- The number of gaps in the sorted rank list. -/
def countGaps (l : List Nat) : Nat :=
  ((List.range' 1 (l.length - 1)).filter (gapAt l)).length

/-- Spec-side wrap-around run: sorted ranks anchored at rank 1 and at the
last rank maxOrder, with exactly one gap. -/
def specWrapRun (sortedOrders : List Nat) (maxOrder : Nat) : Bool :=
  (sortedOrders.head? == some 1 && sortedOrders.getLast? == some maxOrder) &&
  countGaps sortedOrders == 1

/-- Spec-side reformulation of parseAddCommand: a command resolves exactly
when at least two ranks are selected and the sorted ranks are a simple
consecutive run, or a wrap-around run with exactly one gap anchored at
rank 1 and the last rank. -/
def parseAddCommandSpec (cmd : String) (periphery : List Nat) : Option (List Nat) :=
  match matchAddRegex cmd with
  | none => none
  | some arg =>
    match parseIndices arg with
    | none => none
    | some indices =>
      let peripheryMap := periphery.enum.map (fun p => (p.2, p.1 + 1))
      let selected := peripheryMap.filter (fun v => indices.contains v.2)
      if selected.length < 2 then none
      else
        let orders := sortNat (selected.map (fun v => v.2))
        if chainSucc orders || specWrapRun (sortNat orders) periphery.length then
          some (selected.map (fun v => v.1))
        else none

lemma foldl_breakStep_some (l : List Nat) (j : Nat) :
    ∀ (idxs : List Nat) (b : Bool),
      idxs.foldl (breakStep l) (some j, b)
        = (some j, b && (idxs.filter (gapAt l)).isEmpty) := by
  intro idxs
  induction idxs with
  | nil => intro b; simp
  | cons i is ih =>
    intro b
    cases hok : l.getD i 0 == l.getD (i - 1) 0 + 1
    · have hgap : gapAt l i = true := by
        unfold gapAt
        rw [hok]
        rfl
      have hst : breakStep l (some j, b) i = (some j, false) := by
        unfold breakStep
        rw [hok]
        rfl
      have hf : (i :: is).filter (gapAt l) = i :: is.filter (gapAt l) := by
        rw [List.filter_cons_of_pos]
        exact hgap
      rw [List.foldl_cons, hst, ih false, hf]
      simp
    · have hgap : gapAt l i = false := by
        unfold gapAt
        rw [hok]
        rfl
      have hst : breakStep l (some j, b) i = (some j, b) := by
        unfold breakStep
        rw [hok]
        rfl
      have hf : (i :: is).filter (gapAt l) = is.filter (gapAt l) := by
        rw [List.filter_cons_of_neg]
        simp [hgap]
      rw [List.foldl_cons, hst, ih b, hf]

lemma foldl_breakStep_none (l : List Nat) :
    ∀ (idxs : List Nat) (b : Bool),
      idxs.foldl (breakStep l) (none, b)
        = match idxs.filter (gapAt l) with
          | [] => (none, b)
          | [i] => (some i, b)
          | i :: _ :: _ => (some i, false) := by
  intro idxs
  induction idxs with
  | nil => intro b; rfl
  | cons i is ih =>
    intro b
    cases hok : l.getD i 0 == l.getD (i - 1) 0 + 1
    · have hgap : gapAt l i = true := by
        unfold gapAt
        rw [hok]
        rfl
      have hst : breakStep l (none, b) i = (some i, b) := by
        unfold breakStep
        rw [hok]
        rfl
      have hf : (i :: is).filter (gapAt l) = i :: is.filter (gapAt l) := by
        rw [List.filter_cons_of_pos]
        exact hgap
      rw [List.foldl_cons, hst, foldl_breakStep_some, hf]
      cases hfi : is.filter (gapAt l) with
      | nil => simp
      | cons x xs => simp
    · have hgap : gapAt l i = false := by
        unfold gapAt
        rw [hok]
        rfl
      have hst : breakStep l (none, b) i = (none, b) := by
        unfold breakStep
        rw [hok]
        rfl
      have hf : (i :: is).filter (gapAt l) = is.filter (gapAt l) := by
        rw [List.filter_cons_of_neg]
        simp [hgap]
      rw [List.foldl_cons, hst, ih b, hf]

lemma head_take_of_pos (s : List Nat) (a : Nat) (i : Nat) (h1 : 1 ≤ i)
    (hh : s.head? = some a) : (s.take i).head? = some a := by
  cases s with
  | nil => simp at hh
  | cons x xs =>
    cases i with
    | zero => omega
    | succ k =>
      rw [List.take_succ_cons]
      simpa using hh

lemma getLast_drop_of_lt (s : List Nat) (i : Nat) (h : i < s.length) :
    (s.drop i).getLast? = s.getLast? := by
  rw [List.getLast?_eq_getElem?, List.getLast?_eq_getElem?, List.length_drop,
    List.getElem?_drop]
  congr 1
  omega

lemma wrapCheck_eq_specWrapRun (s : List Nat) (m : Nat) (h2 : 2 ≤ s.length) :
    wrapCheck s m = specWrapRun s m := by
  unfold wrapCheck specWrapRun countGaps breakScan
  cases hanchor : (s.head? == some 1 && s.getLast? == some m) with
  | false => simp
  | true =>
    rw [foldl_breakStep_none]
    rw [Bool.and_eq_true] at hanchor
    obtain ⟨hhb, hlb⟩ := hanchor
    have hh : s.head? = some 1 := by simpa using hhb
    have hl : s.getLast? = some m := by simpa using hlb
    cases hF : List.filter (gapAt s) (List.range' 1 (s.length - 1)) with
    | nil => simp
    | cons i is =>
      cases is with
      | nil =>
        have hmem : i ∈ List.filter (gapAt s) (List.range' 1 (s.length - 1)) := by
          rw [hF]
          exact List.mem_singleton_self i
        have hrange := List.mem_range'_1.mp (List.mem_filter.mp hmem).1
        have ht : (s.take i).head? = some 1 :=
          head_take_of_pos s 1 i hrange.1 hh
        have hd : (s.drop i).getLast? = some m := by
          rw [getLast_drop_of_lt s i (by omega)]
          exact hl
        simp [ht, hd]
      | cons x xs =>
        have hne : ((i :: x :: xs).length == 1) = false := by
          simp only [List.length_cons, beq_eq_false_iff_ne, ne_eq]
          omega
        simp [hne]

lemma parseGate_iff (selected : List (Nat × Nat)) (m : Nat)
    (h2 : 2 ≤ selected.length) :
    ((if !(chainSucc (sortNat (selected.map (fun v => v.2)))) &&
          1 < (sortNat (selected.map (fun v => v.2))).length then
        wrapCheck (sortNat (sortNat (selected.map (fun v => v.2)))) m
      else chainSucc (sortNat (selected.map (fun v => v.2)))) = true)
    ↔ ((chainSucc (sortNat (selected.map (fun v => v.2))) ||
        specWrapRun (sortNat (sortNat (selected.map (fun v => v.2)))) m) = true) := by
  have hlen : (sortNat (selected.map (fun v => v.2))).length = selected.length := by
    rw [sortNat_length, List.length_map]
  have hlt : 1 < (sortNat (selected.map (fun v => v.2))).length := by omega
  have hw : wrapCheck (sortNat (sortNat (selected.map (fun v => v.2)))) m
      = specWrapRun (sortNat (sortNat (selected.map (fun v => v.2)))) m := by
    refine wrapCheck_eq_specWrapRun _ _ ?_
    rw [sortNat_length]
    omega
  rw [hw]
  cases hchain : chainSucc (sortNat (selected.map (fun v => v.2)))
  · simp [hlt]
  · simp

/-- C9: parseAddCommand resolves a command exactly when at least two
periphery ranks are selected and these ranks form a simple consecutive
run, or a wrap-around run whose sorted ranks show exactly one gap and
anchor at rank 1 and the last rank; every other selection yields none. -/
theorem parseAddCommand_consecutive_gate (cmd : String) (periphery : List Nat) :
    parseAddCommand cmd periphery = parseAddCommandSpec cmd periphery := by
  unfold parseAddCommand parseAddCommandSpec
  cases matchAddRegex cmd with
  | none => rfl
  | some arg =>
    dsimp only
    cases parseIndices arg with
    | none => rfl
    | some indices =>
      dsimp only
      split
      · rfl
      · next h =>
        refine if_congr ?_ rfl rfl
        exact parseGate_iff _ periphery.length (by omega)

/-- The graph after one insertion from the seed connecting to the whole
periphery segment (command "A, 1-3" at canvas 800 by 600). -/
def crossGraph : Graph := (handleAddCommand seedGraph "A, 1-3" 800 600).getD ⟨[], []⟩

set_option maxRecDepth 400000 in
/-- C1: refuted.  A single successful insertion from the 3-vertex seed
triangle (command "A, 1-3", which selects the full periphery segment
[0, 1, 2], passes the fully-connected check, takes the position returned by
findValidPosition and commits it with addVertexToSegment) already yields a
graph in which the edges (0, 1) and (3, 2) share no endpoint yet properly
cross at the stored positions: the engine does not enforce planarity. -/
theorem insertion_creates_crossing :
    handleAddCommand seedGraph "A, 1-3" 800 600 = some crossGraph ∧
    crossGraph.vertices.length = 4 ∧
    (0, 1) ∈ crossGraph.edges ∧
    (3, 2) ∈ crossGraph.edges ∧
    doLinesIntersect (posAt crossGraph.vertices 3) (posAt crossGraph.vertices 2)
      (posAt crossGraph.vertices 0) (posAt crossGraph.vertices 1) = true := by
  decide
